import Mathlib

/-!
Verification development for the candidate pooling and allocation engine of
the `cbth_caller_assignment` repository.

The Python sources under `src/allocator/` (`pool.py`, `requery.py`,
`mix_allocator.py`) are shallowly embedded as executable Lean definitions:

* pandas DataFrames become `List Row` (resp. `List LRow` for frames carrying
  the `window_label` column, `List (Row × String)` for frames carrying the
  `caller_id` column); a row index is its position, matching the RangeIndex
  the pipeline produces (`ignore_index=True`, `reset_index(drop=True)`).
* Python floats (source-mix weights) are modelled as exact rationals `ℚ`.
* Python ints are `Int` (they are unbounded in Python).
* `_stable_offset` truncates an MD5 digest to 32 bits; it is modelled by an
  arbitrary function `hash : String → Nat` passed as a parameter, so every
  theorem below holds for the MD5-based instance in particular.
* Python's `sorted` (a stable sort) is modelled by the stable insertion sort
  `sortLE` defined below.
* the three `while` loops of `allocate` are modelled with an explicit fuel
  parameter; exhausting fuel yields `none`.
-/

set_option allowUnsafeReducibility true in
attribute [semireducible] Rat.add Rat.mul Rat.sub Rat.inv Rat.ofScientific

/-! ## Generic helpers: stable sort, lexicographic string order -/

/-- Code-point lexicographic order on character lists (Python string `<`). -/
def charListLt : List Char → List Char → Bool
  | [], [] => false
  | [], _ :: _ => true
  | _ :: _, [] => false
  | a :: as, b :: bs => if a < b then true else if b < a then false else charListLt as bs

/-- Non-strict lexicographic order on strings (Python string `<=`). -/
def strLeB (a b : String) : Bool := !(charListLt b.data a.data)

/-- Insert `a` before the first element `b` of `l` with `le a b`. -/
def insertLE (le : α → α → Bool) (a : α) : List α → List α
  | [] => [a]
  | b :: l => if le a b then a :: b :: l else b :: insertLE le a l

/-- Stable insertion sort.  For a total preorder `le` this has exactly the
semantics of Python's stable `sorted`: elements are ordered by `le`, and
elements equivalent under `le` keep their original relative order. -/
def sortLE (le : α → α → Bool) : List α → List α
  | [] => []
  | a :: l => insertLE le a (sortLE le l)

/-! ## Data model -/

/-- A candidate row.  `source_key`, `phone`, `last_login_date` are the fields
the engine reads; `username` stands for the passthrough payload columns.
`last_login_date` is the parsed date as a day number; `none` models
NaT/unparseable (`pd.to_datetime(..., errors="coerce")`). -/
structure Row where
  source_key : String
  username : String
  phone : String
  last_login_date : Option Int
  deriving DecidableEq, Repr

instance : Inhabited Row := ⟨⟨"", "", "", none⟩⟩

/-- Modelled from the spec: `WindowRule` is imported by `allocator/pool.py`
from `config.settings`, but no class of that name appears in
`src/config/settings.py` (the definition is missing from the sources).
Spec §3: label (string), `day_min` (integer), `day_max` (integer or
open-ended), `priority` (integer). -/
structure WindowRule where
  label : String
  day_min : Int
  day_max : Option Int
  priority : Int
  deriving DecidableEq, Repr

/-- A pool row: a candidate row tagged with the `window_label` column. -/
structure LRow where
  row : Row
  window_label : String
  deriving DecidableEq, Repr

instance : Inhabited LRow := ⟨⟨default, ""⟩⟩

/-! ## allocator/pool.py -/

/-- `_norm_phone` (allocator/pool.py): keep digits only; if 9 digits remain,
left-pad with a single zero. -/
def norm_phone (s : String) : String :=
  let digits := String.mk (s.data.filter Char.isDigit)
  if digits.length = 9 then "0" ++ digits else digits

/-- `_days_since_last_login` for a single row: `asof - last_login_date` in
whole days; an unparseable date gives `none` (pandas NaT/NaN). -/
def days_since_last_login (asof : Int) (r : Row) : Option Int :=
  r.last_login_date.map (fun d => asof - d)

/-- Membership test of `filter_by_window_rule`: days within
`[day_min, day_max]`, both ends inclusive, `day_max = none` open-ended;
a NaN days value fails both pandas masks. -/
def window_mask (asof : Int) (rule : WindowRule) (r : Row) : Bool :=
  match days_since_last_login asof r with
  | none => false
  | some d =>
    decide (rule.day_min ≤ d) &&
      (match rule.day_max with
       | none => true
       | some dmax => decide (d ≤ dmax))

/-- `filter_by_window_rule` (allocator/pool.py): the rows matching the
window, each tagged with the rule's label. -/
def filter_by_window_rule (df : List Row) (asof : Int) (rule : WindowRule) : List LRow :=
  (df.filter (window_mask asof rule)).map (fun r => ⟨r, rule.label⟩)

/-- Normalized phone of a pool row (the dedup key). -/
def phone_key (lr : LRow) : String := norm_phone lr.row.phone

/-- The window loop of `build_windowed_pool`: iterate rules, drop rows whose
normalized phone is already in the seen set, append survivors, stop once the
pool has reached `target_rows`. -/
def pool_go (df : List Row) (asof : Int) (target : Int) :
    List WindowRule → List LRow → List String → List LRow
  | [], pool, _ => pool
  | rule :: ws, pool, seen =>
    let dfw := filter_by_window_rule df asof rule
    let kept := dfw.filter (fun lr => !(seen.contains (phone_key lr)))
    let pool2 := pool ++ kept
    let seen2 := seen ++ kept.map phone_key
    if target ≤ (pool2.length : Int) then pool2
    else pool_go df asof target ws pool2 seen2

/-- `build_windowed_pool` (allocator/pool.py): empty pool for
`target_rows ≤ 0`, otherwise run the window loop and trim the tail in case
the last batch overshot. -/
def build_windowed_pool (df : List Row) (asof : Int) (windows : List WindowRule)
    (target_rows : Int) : List LRow :=
  if target_rows ≤ 0 then []
  else
    let pool := pool_go df asof target_rows windows [] []
    if target_rows < (pool.length : Int) then pool.take target_rows.toNat else pool

/-- The same accumulation without the early stop: all eligible (window
matching, cross-window deduplicated) rows, in accumulation order. -/
def pool_accum (df : List Row) (asof : Int) :
    List WindowRule → List String → List LRow
  | [], _ => []
  | rule :: ws, seen =>
    let dfw := filter_by_window_rule df asof rule
    let kept := dfw.filter (fun lr => !(seen.contains (phone_key lr)))
    kept ++ pool_accum df asof ws (seen ++ kept.map phone_key)

/-! ## allocator/requery.py -/

namespace Requery

/-- `_norm_phone` (allocator/requery.py) — same computation as
`norm_phone` in pool.py. -/
def norm_phone (s : String) : String :=
  let d := String.mk (s.data.filter Char.isDigit)
  if d.length = 9 then "0" ++ d else d

/-- `_filter_by_window_rule` (allocator/requery.py). -/
def filter_by_window_rule (df : List Row) (asof : Int) (rule : WindowRule) : List LRow :=
  (df.filter (window_mask asof rule)).map (fun r => ⟨r, rule.label⟩)

/-- The window loop of `build_candidate_pool`: as in pool.py but with two
`continue` short-circuits (empty window slice, empty filtered slice) and the
per-window filter stack `filt` applied inside each window. -/
def pool_go (df : List Row) (asof : Int) (target : Int)
    (filt : List LRow → List LRow) :
    List WindowRule → List LRow → List String → List LRow
  | [], pool, _ => pool
  | rule :: ws, pool, seen =>
    let df_win := Requery.filter_by_window_rule df asof rule
    if df_win = [] then Requery.pool_go df asof target filt ws pool seen
    else
      let df_win2 := filt df_win
      if df_win2 = [] then Requery.pool_go df asof target filt ws pool seen
      else
        let kept := df_win2.filter (fun lr => !(seen.contains (Requery.norm_phone lr.row.phone)))
        let pool2 := pool ++ kept
        let seen2 := seen ++ kept.map (fun lr => Requery.norm_phone lr.row.phone)
        if target ≤ (pool2.length : Int) then pool2
        else Requery.pool_go df asof target filt ws pool2 seen2

/-- `build_candidate_pool` (allocator/requery.py), with the dedup column
fixed to its default `phone_col = "phone"` (the instantiation the claim is
about; the row model has typed fields rather than named columns). -/
def build_candidate_pool (df : List Row) (asof : Int) (windows : List WindowRule)
    (target_rows : Int) (filt : List LRow → List LRow) : List LRow :=
  if df = [] ∨ windows = [] ∨ target_rows ≤ 0 then []
  else
    let pool := Requery.pool_go df asof target_rows filt windows [] []
    if target_rows < (pool.length : Int) then pool.take target_rows.toNat else pool

end Requery

theorem requery_norm_phone_eq (s : String) : Requery.norm_phone s = norm_phone s := rfl

/-! ## allocator/mix_allocator.py -/

/-- `_stable_offset` (mix_allocator.py): `int(md5(key)[:8], 16) % n`, and `0`
when `n ≤ 0`.  The MD5-derived 32-bit value is the parameter `hash`. -/
def stable_offset (hash : String → Nat) (key : String) (n : Nat) : Nat :=
  if n = 0 then 0 else hash key % n

/-- `_rotate` (mix_allocator.py): `xs[offset:] + xs[:offset]` after reducing
the offset modulo the length. -/
def rotate_list (xs : List String) (i : Nat) : List String :=
  if xs = [] then xs else xs.drop (i % xs.length) ++ xs.take (i % xs.length)

/-- Dict read with default `0` (Python `.get(k, 0)` / `dict[k]` on a key
known to be present). -/
def alookupQ (l : List (String × ℚ)) (k : String) : ℚ :=
  match l.find? (fun kv => decide (kv.1 = k)) with
  | some kv => kv.2
  | none => 0

/-- Dict read with default `0` for integer-valued dicts. -/
def alookupZ (l : List (String × Int)) (k : String) : Int :=
  match l.find? (fun kv => decide (kv.1 = k)) with
  | some kv => kv.2
  | none => 0

/-- Sort key comparison used by `_fair_round_split`'s
`sorted(..., key=lambda k: (-remainders[k], k))`: tuple order, i.e. larger
remainder first, ties by ascending key. -/
def remainder_key_le (rem : String → ℚ) (a b : String) : Bool :=
  decide (rem b < rem a) || (decide (rem a = rem b) && strLeB a b)

/-- `_fair_round_split` (mix_allocator.py): floor + largest-remainder split
of `total` across weighted keys.  `remainders[k] = total*wnorm[k] - base[k]`
is inlined with `base[k] = ⌊total*wnorm[k]⌋`. -/
def fair_round_split (total : Int) (weights : List (String × ℚ)) : List (String × Int) :=
  if total ≤ 0 ∨ weights = [] then weights.map (fun kv => (kv.1, 0))
  else
    let wpos := weights.map (fun kv => (kv.1, max 0 kv.2))
    let s := (wpos.map (fun kv => kv.2)).sum
    if s ≤ 0 then weights.map (fun kv => (kv.1, 0))
    else
      let wnorm := wpos.map (fun kv => (kv.1, kv.2 / s))
      let base := wnorm.map (fun kv => (kv.1, ⌊(total : ℚ) * kv.2⌋))
      let assigned := (base.map (fun kv => kv.2)).sum
      let remaining := max 0 (total - assigned)
      if remaining = 0 then base
      else
        let rem : String → ℚ := fun k => (total : ℚ) * alookupQ wnorm k - ⌊(total : ℚ) * alookupQ wnorm k⌋
        let order := sortLE (remainder_key_le rem) (wnorm.map (fun kv => kv.1))
        let top := order.take remaining.toNat
        base.map (fun kv => if top.contains kv.1 then (kv.1, kv.2 + 1) else kv)

/-- `groupby("source_key")` queue for one source: the row positions with
that source key, in original order. -/
def group_idx (pool : List Row) (src : String) : List Nat :=
  (List.range pool.length).filter (fun i => decide ((pool.getD i default).source_key = src))

/-- The inner `while` of the primary pass, for one source.  State:
source queue `q`, rotating caller deque `rr`, per-caller per-source quota
table, per-caller remaining capacity, accumulated `assigned_rows`. -/
def prim_loop (src : String) :
    Nat → List Nat → List String → (String → String → Int) → (String → Int) →
      List (Nat × String) →
      Option (List Nat × (String → String → Int) × (String → Int) × List (Nat × String))
  | 0, _, _, _, _, _ => none
  | fuel + 1, q, rr, quotas, cap, assigned =>
    if q ≠ [] ∧ rr.any (fun c => decide (0 < quotas c src)) then
      match q, rr with
      | idx :: q2, c :: rr2 =>
        let rrNext := rr2 ++ [c]
        if quotas c src ≤ 0 ∨ cap c ≤ 0 then
          prim_loop src fuel (idx :: q2) rrNext quotas cap assigned
        else
          prim_loop src fuel q2 rrNext
            (Function.update quotas c (Function.update (quotas c) src (quotas c src - 1)))
            (Function.update cap c (cap c - 1))
            (assigned ++ [(idx, c)])
      | _, _ => some (q, quotas, cap, assigned)
    else some (q, quotas, cap, assigned)

/-- The primary pass: `for src in source_mix.keys()`, skipping sources with
an empty queue, rotating the caller order per source/day, running the inner
loop, and writing the leftover queue back. -/
def prim_sources (hash : String → Nat) (today : String) (callers : List String)
    (fuel : Nat) :
    List String → (String → List Nat) → (String → String → Int) → (String → Int) →
      List (Nat × String) →
      Option ((String → List Nat) × (String → String → Int) × (String → Int) × List (Nat × String))
  | [], perSource, quotas, cap, assigned => some (perSource, quotas, cap, assigned)
  | src :: srcs, perSource, quotas, cap, assigned =>
    let q := perSource src
    if q = [] then prim_sources hash today callers fuel srcs perSource quotas cap assigned
    else
      let off := stable_offset hash (today ++ "-" ++ src) callers.length
      let rr := rotate_list callers off
      match prim_loop src fuel q rr quotas cap assigned with
      | none => none
      | some (q2, quotas2, cap2, assigned2) =>
        prim_sources hash today callers fuel srcs
          (Function.update perSource src q2) quotas2 cap2 assigned2

/-- `sorted(source_mix.keys(), key=lambda k: source_mix[k], reverse=True)`:
mix keys by descending weight, ties keeping mix order (stable sort). -/
def spill_sources (mix : List (String × ℚ)) : List String :=
  sortLE (fun a b => decide (alookupQ mix b ≤ alookupQ mix a)) (mix.map (fun kv => kv.1))

/-- The spillover queue: leftover per-source queues concatenated in
descending-weight source order (the `if qq:` guard is a no-op for `extend`). -/
def spill_queue (perSource : String → List Nat) (mix : List (String × ℚ)) : List Nat :=
  ((spill_sources mix).map (fun src => perSource src)).flatten

/-- The spillover `while` loop: rotate callers, skip those without
remaining capacity, assign the queue head otherwise, and break once every
caller's capacity is ≤ 0 (checked only after an assignment). -/
def spill_loop (callers : List String) :
    Nat → List Nat → List String → (String → Int) → List (Nat × String) →
      Option ((String → Int) × List (Nat × String))
  | 0, _, _, _, _ => none
  | fuel + 1, rcq, rr, cap, assigned =>
    if rcq ≠ [] ∧ rr ≠ [] then
      match rcq, rr with
      | idx :: rcq2, c :: rr2 =>
        let rrNext := rr2 ++ [c]
        if cap c ≤ 0 then spill_loop callers fuel (idx :: rcq2) rrNext cap assigned
        else
          let cap2 := Function.update cap c (cap c - 1)
          let assigned2 := assigned ++ [(idx, c)]
          if callers.all (fun c2 => decide (cap2 c2 ≤ 0)) then some (cap2, assigned2)
          else spill_loop callers fuel rcq2 rrNext cap2 assigned2
      | _, _ => some (cap, assigned)
    else some (cap, assigned)

/-- The caller id written at row `i` by the `out.at[idx, "caller_id"] = c`
loop (the last write wins; each index is in fact written at most once). -/
def last_assign (assigned : List (Nat × String)) (i : Nat) : Option String :=
  ((assigned.filter (fun p => p.1 = i)).getLast?).map (fun p => p.2)

/-- `out[out["caller_id"].notna()].reset_index(drop=True)`: the assigned
rows in original pool order, tagged with their caller id. -/
def build_out (pool : List Row) (assigned : List (Nat × String)) : List (Row × String) :=
  (List.range pool.length).filterMap
    (fun i => (last_assign assigned i).map (fun c => (pool.getD i default, c)))

/-- `value_counts().reindex(caller_ids).fillna(0)` read for one caller:
the number of output rows currently labelled `c`. -/
def count_caller (out : List (Row × String)) (c : String) : Nat :=
  (out.filter (fun rc => decide (rc.2 = c))).length

/-- `out.index[out["caller_id"] == d].tolist()`: positions labelled `d`,
ascending. -/
def caller_rows (out : List (Row × String)) (d : String) : List Nat :=
  (List.range out.length).filter (fun i => decide ((out.getD i default).2 = d))

/-- `out.at[ridx, "caller_id"] = t`: rewrite the caller label at one
position, keeping the row payload. -/
def set_caller (out : List (Row × String)) (i : Nat) (t : String) : List (Row × String) :=
  out.set i ((out.getD i default).1, t)

/-- One donor/taker pair of the balancing `for` loop: move the
last-indexed row of the donor to the taker (no-op when the donor holds no
row), updating the counts dict and the `moved` flag. -/
def bal_step (st : List (Row × String) × (String → Int) × Bool) (dt : String × String) :
    List (Row × String) × (String → Int) × Bool :=
  let rows := caller_rows st.1 dt.1
  match rows.getLast? with
  | none => st
  | some ridx =>
    let counts1 := Function.update st.2.1 dt.1 (st.2.1 dt.1 - 1)
    let counts2 := Function.update counts1 dt.2 (counts1 dt.2 + 1)
    (set_caller st.1 ridx dt.2, counts2, true)

/-- One full pass of the balancing loop body over `zip(donors, takers)`. -/
def bal_pass (out : List (Row × String)) (counts : String → Int)
    (pairs : List (String × String)) : List (Row × String) × (String → Int) × Bool :=
  pairs.foldl bal_step (out, counts, false)

/-- The balancing `while moved:` loop: recompute overfull and underfull
callers, stop when either side is empty or a pass moved nothing. -/
def bal_loop (callers : List String) (desired : String → Int) :
    Nat → List (Row × String) → (String → Int) → Option (List (Row × String))
  | 0, _, _ => none
  | fuel + 1, out, counts =>
    let donors := callers.filter (fun c => decide (desired c < counts c))
    let takers := callers.filter (fun c => decide (counts c < desired c))
    if donors = [] ∨ takers = [] then some out
    else
      let st := bal_pass out counts (donors.zip takers)
      if st.2.2 then bal_loop callers desired fuel st.1 st.2.1 else some st.1

/-- `sorted(caller_ids, key=lambda x: _stable_offset(today + "-target-" + x, 1 << 16))`. -/
def bal_order (hash : String → Nat) (today : String) (callers : List String) : List String :=
  sortLE
    (fun a b =>
      decide (stable_offset hash (today ++ "-target-" ++ a) 65536 ≤
        stable_offset hash (today ++ "-target-" ++ b) 65536))
    callers

/-- `desired = {c: base + (1 if i < remainder else 0) for i, c in enumerate(order)}`
with `base = total // n`, `remainder = total % n`. -/
def desired_of (hash : String → Nat) (today : String) (callers : List String)
    (total n : Nat) : String → Int :=
  fun c =>
    ((total / n : Nat) : Int) +
      (if (bal_order hash today callers).indexOf c < total % n then 1 else 0)

/-- `allocate` (mix_allocator.py).  `today` is `date.today().isoformat()`
(the ambient run date), `hash` the MD5-derived offset source, `fuel` the
loop budget (`none` = a loop failed to finish within `fuel` iterations). -/
def allocate (hash : String → Nat) (today : String) (fuel : Nat) (pool : List Row)
    (callers : List String) (per_caller_target : Int) (mix : List (String × ℚ)) :
    Option (List (Row × String)) :=
  if pool = [] then some []
  else if callers = [] ∨ per_caller_target ≤ 0 ∨ mix = [] then some []
  else
    let split := fair_round_split per_caller_target mix
    let quotas0 : String → String → Int := fun _ src => alookupZ split src
    let cap0 : String → Int := fun _ => (split.map (fun kv => kv.2)).sum
    let perSource0 : String → List Nat := fun src => group_idx pool src
    match prim_sources hash today callers fuel (mix.map (fun kv => kv.1))
        perSource0 quotas0 cap0 [] with
    | none => none
    | some (perSource1, _, cap1, assigned1) =>
      let rcq := spill_queue perSource1 mix
      let rrSpill := rotate_list callers (stable_offset hash (today ++ "-spillover") callers.length)
      match spill_loop callers fuel rcq rrSpill cap1 assigned1 with
      | none => none
      | some (_, assigned2) =>
        let out := build_out pool assigned2
        if out = [] then some out
        else
          bal_loop callers (desired_of hash today callers out.length callers.length)
            fuel out (fun c => (count_caller out c : Int))

/-! ## Lemmas about the stable sort -/

theorem insertLE_perm (le : α → α → Bool) (a : α) (l : List α) :
    (insertLE le a l).Perm (a :: l) := by
  induction l with
  | nil => exact List.Perm.refl _
  | cons b t ih =>
    simp only [insertLE]
    by_cases h : le a b
    · simp [h]
    · simp only [h, if_neg]
      exact (ih.cons b).trans (List.Perm.swap a b t)

theorem sortLE_perm (le : α → α → Bool) (l : List α) : (sortLE le l).Perm l := by
  induction l with
  | nil => exact List.Perm.refl _
  | cons a t ih => exact (insertLE_perm le a (sortLE le t)).trans (ih.cons a)

theorem mem_sortLE (le : α → α → Bool) (l : List α) (x : α) :
    x ∈ sortLE le l ↔ x ∈ l := (sortLE_perm le l).mem_iff

theorem sortLE_length (le : α → α → Bool) (l : List α) :
    (sortLE le l).length = l.length := (sortLE_perm le l).length_eq

theorem sortLE_nodup (le : α → α → Bool) (l : List α) (h : l.Nodup) :
    (sortLE le l).Nodup := ((sortLE_perm le l).nodup_iff).mpr h

theorem insertLE_pairwise (le : α → α → Bool)
    (htot : ∀ a b, le a b = true ∨ le b a = true)
    (htrans : ∀ a b c, le a b = true → le b c = true → le a c = true)
    (a : α) (l : List α) (hl : l.Pairwise (fun x y => le x y = true)) :
    (insertLE le a l).Pairwise (fun x y => le x y = true) := by
  induction l with
  | nil => simp [insertLE]
  | cons b t ih =>
    simp only [insertLE]
    by_cases h : le a b = true
    · rw [if_pos h]
      refine List.Pairwise.cons ?_ hl
      intro x hx
      rcases List.mem_cons.mp hx with rfl | hx2
      · exact h
      · exact htrans a b x h (List.rel_of_pairwise_cons hl hx2)
    · rw [if_neg h]
      refine List.Pairwise.cons ?_ (ih (List.Pairwise.of_cons hl))
      intro x hx
      have hx3 := (insertLE_perm le a t).mem_iff.mp hx
      rcases List.mem_cons.mp hx3 with rfl | hx2
      · cases htot x b with
        | inl hab => exact absurd hab h
        | inr hba => exact hba
      · exact List.rel_of_pairwise_cons hl hx2

theorem sortLE_pairwise (le : α → α → Bool)
    (htot : ∀ a b, le a b = true ∨ le b a = true)
    (htrans : ∀ a b c, le a b = true → le b c = true → le a c = true)
    (l : List α) : (sortLE le l).Pairwise (fun x y => le x y = true) := by
  induction l with
  | nil => simp [sortLE]
  | cons a t ih => exact insertLE_pairwise le htot htrans a (sortLE le t) ih

/-- Stability: if the input is pairwise ordered by `R` (for example by
original position), then in the sorted output any two elements that the
comparison cannot distinguish are still ordered by `R`. -/
theorem insertLE_pairwise_refine (le : α → α → Bool) (R : α → α → Prop)
    (htot : ∀ a b, le a b = true ∨ le b a = true)
    (htrans : ∀ a b c, le a b = true → le b c = true → le a c = true)
    (a : α) (l : List α) (ha : ∀ b ∈ l, R a b)
    (hl : l.Pairwise (fun x y => le x y = true ∧ (le y x = true → R x y))) :
    (insertLE le a l).Pairwise (fun x y => le x y = true ∧ (le y x = true → R x y)) := by
  induction l with
  | nil => simp [insertLE]
  | cons b t ih =>
    simp only [insertLE]
    by_cases h : le a b = true
    · rw [if_pos h]
      refine List.Pairwise.cons ?_ hl
      intro x hx
      rcases List.mem_cons.mp hx with rfl | hx2
      · exact ⟨h, fun _ => ha x (by simp)⟩
      · have hbx := List.rel_of_pairwise_cons hl hx2
        exact ⟨htrans a b x h hbx.1, fun _ => ha x (by simp [hx2])⟩
    · rw [if_neg h]
      have ih2 := ih (fun c hc => ha c (by simp [hc])) (List.Pairwise.of_cons hl)
      refine List.Pairwise.cons ?_ ih2
      intro x hx
      have hx3 := (insertLE_perm le a t).mem_iff.mp hx
      rcases List.mem_cons.mp hx3 with rfl | hx2
      · have hba : le b x = true := by
          cases htot x b with
          | inl hab => exact absurd hab h
          | inr hba => exact hba
        exact ⟨hba, fun hxb => absurd hxb h⟩
      · exact List.rel_of_pairwise_cons hl hx2

theorem sortLE_pairwise_refine (le : α → α → Bool) (R : α → α → Prop)
    (htot : ∀ a b, le a b = true ∨ le b a = true)
    (htrans : ∀ a b c, le a b = true → le b c = true → le a c = true)
    (l : List α) (hl : l.Pairwise R) :
    (sortLE le l).Pairwise (fun x y => le x y = true ∧ (le y x = true → R x y)) := by
  induction l with
  | nil => simp [sortLE]
  | cons a t ih =>
    have ha : ∀ b ∈ sortLE le t, R a b := by
      intro b hb
      exact List.rel_of_pairwise_cons hl ((mem_sortLE le t b).mp hb)
    exact insertLE_pairwise_refine le R htot htrans a (sortLE le t) ha
      (ih (List.Pairwise.of_cons hl))

/-! ## The pool builder returns a prefix of the full accumulation -/

theorem pool_go_trim_eq (df : List Row) (asof : Int) (t : Int) :
    ∀ (ws : List WindowRule) (pool : List LRow) (seen : List String),
      (pool.length : Int) < t →
      (if t < ((pool_go df asof t ws pool seen).length : Int)
       then (pool_go df asof t ws pool seen).take t.toNat
       else pool_go df asof t ws pool seen)
        = (pool ++ pool_accum df asof ws seen).take t.toNat := by
  intro ws
  induction ws with
  | nil =>
    intro pool seen h
    simp only [pool_go, pool_accum, List.append_nil]
    have h1 : ¬ t < (pool.length : Int) := by omega
    rw [if_neg h1]
    exact (List.take_of_length_le (by omega)).symm
  | cons rule ws ih =>
    intro pool seen h
    simp only [pool_go, pool_accum]
    generalize (filter_by_window_rule df asof rule).filter
      (fun lr => !(seen.contains (phone_key lr))) = kept
    by_cases hstop : t ≤ ((pool ++ kept).length : Int)
    · rw [if_pos hstop, ← List.append_assoc,
        List.take_append_of_le_length (by omega : t.toNat ≤ (pool ++ kept).length)]
      by_cases hlt : t < ((pool ++ kept).length : Int)
      · rw [if_pos hlt]
      · rw [if_neg hlt]
        exact (List.take_of_length_le (by omega)).symm
    · rw [if_neg hstop, ← List.append_assoc]
      exact ih (pool ++ kept) (seen ++ kept.map phone_key) (by omega)

theorem build_windowed_pool_eq_take (df : List Row) (asof : Int)
    (ws : List WindowRule) (t : Int) :
    build_windowed_pool df asof ws t = (pool_accum df asof ws []).take t.toNat := by
  unfold build_windowed_pool
  by_cases h : t ≤ 0
  · have h0 : t.toNat = 0 := by omega
    simp [h, h0]
  · have h0 : (([] : List LRow).length : Int) < t := by simp; omega
    have h2 := pool_go_trim_eq df asof t ws [] [] h0
    simpa [h] using h2

theorem pool_accum_nil_df (asof : Int) :
    ∀ (ws : List WindowRule) (seen : List String), pool_accum [] asof ws seen = [] := by
  intro ws
  induction ws with
  | nil => intro seen; rfl
  | cons rule ws ih =>
    intro seen
    simp only [pool_accum, filter_by_window_rule, List.filter_nil, List.map_nil,
      List.nil_append]
    exact ih _

theorem requery_go_trim_eq (df : List Row) (asof : Int) (t : Int) :
    ∀ (ws : List WindowRule) (pool : List LRow) (seen : List String),
      (pool.length : Int) < t →
      (if t < ((Requery.pool_go df asof t (fun x => x) ws pool seen).length : Int)
       then (Requery.pool_go df asof t (fun x => x) ws pool seen).take t.toNat
       else Requery.pool_go df asof t (fun x => x) ws pool seen)
        = (pool ++ pool_accum df asof ws seen).take t.toNat := by
  intro ws
  induction ws with
  | nil =>
    intro pool seen h
    simp only [Requery.pool_go, pool_accum, List.append_nil]
    have h1 : ¬ t < (pool.length : Int) := by omega
    rw [if_neg h1]
    exact (List.take_of_length_le (by omega)).symm
  | cons rule ws ih =>
    intro pool seen h
    simp only [Requery.pool_go, pool_accum]
    have hfw : Requery.filter_by_window_rule df asof rule = filter_by_window_rule df asof rule :=
      rfl
    have hkept :
        (filter_by_window_rule df asof rule).filter
            (fun lr => !(seen.contains (Requery.norm_phone lr.row.phone)))
          = (filter_by_window_rule df asof rule).filter
            (fun lr => !(seen.contains (phone_key lr))) := rfl
    by_cases hw : filter_by_window_rule df asof rule = []
    · rw [hfw, if_pos hw, hw]
      simp only [List.filter_nil, List.map_nil, List.nil_append, List.append_nil]
      exact ih pool seen h
    · rw [hfw, if_neg hw, if_neg hw, hkept]
      generalize hk : (filter_by_window_rule df asof rule).filter
        (fun lr => !(seen.contains (phone_key lr))) = kept
      have hmap : kept.map (fun lr => Requery.norm_phone lr.row.phone) = kept.map phone_key :=
        rfl
      rw [hmap]
      by_cases hstop : t ≤ ((pool ++ kept).length : Int)
      · rw [if_pos hstop, ← List.append_assoc,
          List.take_append_of_le_length (by omega : t.toNat ≤ (pool ++ kept).length)]
        by_cases hlt : t < ((pool ++ kept).length : Int)
        · rw [if_pos hlt]
        · rw [if_neg hlt]
          exact (List.take_of_length_le (by omega)).symm
      · rw [if_neg hstop, ← List.append_assoc]
        exact ih (pool ++ kept) (seen ++ kept.map phone_key) (by omega)

/-- C10: the two PoolBuilder implementations agree when the per-window
eligibility filter is the identity. -/
theorem c10_pool_builders_equivalent (df : List Row) (asof : Int)
    (ws : List WindowRule) (t : Int) :
    Requery.build_candidate_pool df asof ws t (fun x => x) = build_windowed_pool df asof ws t := by
  unfold Requery.build_candidate_pool
  by_cases hd : df = [] ∨ ws = [] ∨ t ≤ 0
  · rw [if_pos hd, build_windowed_pool_eq_take]
    rcases hd with rfl | rfl | ht
    · rw [pool_accum_nil_df]
      simp
    · simp [pool_accum]
    · have h0 : t.toNat = 0 := by omega
      simp [h0]
  · rw [if_neg hd, build_windowed_pool_eq_take]
    push_neg at hd
    have h0 : (([] : List LRow).length : Int) < t := by
      simp
      omega
    have h2 := requery_go_trim_eq df asof t ws [] [] h0
    simpa using h2

/-- C6: the pool is the length-`target_rows` prefix of the full eligible
accumulation: its length never exceeds `target_rows`, it equals the prefix
of the accumulation (so trimming only drops the tail of the last batch),
and when the eligible rows suffice the length is exactly `target_rows`. -/
theorem c6_target_ceiling (df : List Row) (asof : Int) (ws : List WindowRule) (t : Int)
    (h : t.toNat ≤ (pool_accum df asof ws []).length) :
    (build_windowed_pool df asof ws t).length ≤ t.toNat ∧
    build_windowed_pool df asof ws t = (pool_accum df asof ws []).take t.toNat ∧
    (build_windowed_pool df asof ws t).length = t.toNat := by
  rw [build_windowed_pool_eq_take]
  refine ⟨List.length_take_le _ _, rfl, ?_⟩
  rw [List.length_take]
  omega

theorem c6_target_ceiling_witness :
    (1 : Int).toNat ≤
        (pool_accum [⟨"A", "u", "0812345678", some 3⟩, ⟨"A", "u", "0899999999", some 4⟩] 10
          [⟨"w1", 0, some 30, 1⟩] []).length ∧
      (build_windowed_pool [⟨"A", "u", "0812345678", some 3⟩, ⟨"A", "u", "0899999999", some 4⟩] 10
          [⟨"w1", 0, some 30, 1⟩] 1).length = (1 : Int).toNat := by
  refine ⟨by decide, ?_⟩
  exact (c6_target_ceiling [⟨"A", "u", "0812345678", some 3⟩, ⟨"A", "u", "0899999999", some 4⟩] 10
    [⟨"w1", 0, some 30, 1⟩] 1 (by decide)).2.2

theorem pool_accum_phone_nodup (df : List Row) (asof : Int)
    (hdf : (df.map (fun r => norm_phone r.phone)).Nodup) :
    ∀ (ws : List WindowRule) (seen : List String),
      ((pool_accum df asof ws seen).map phone_key).Nodup ∧
        ∀ p ∈ (pool_accum df asof ws seen).map phone_key, p ∉ seen := by
  intro ws
  induction ws with
  | nil => intro seen; simp [pool_accum]
  | cons rule ws ih =>
    intro seen
    simp only [pool_accum, List.map_append]
    generalize hk : (filter_by_window_rule df asof rule).filter
      (fun lr => !(seen.contains (phone_key lr))) = kept
    have hsub : List.Sublist (kept.map phone_key) (df.map (fun r => norm_phone r.phone)) := by
      have h1 : List.Sublist kept (filter_by_window_rule df asof rule) := by
        rw [← hk]; exact List.filter_sublist _
      have h2 : List.Sublist (kept.map phone_key)
          ((filter_by_window_rule df asof rule).map phone_key) :=
        h1.map phone_key
      have h3 : (filter_by_window_rule df asof rule).map phone_key
          = (df.filter (window_mask asof rule)).map (fun r => norm_phone r.phone) := by
        simp [filter_by_window_rule, phone_key]
      rw [h3] at h2
      exact h2.trans ((List.filter_sublist df).map _)
    have hknodup : (kept.map phone_key).Nodup := hdf.sublist hsub
    have hknotseen : ∀ p ∈ kept.map phone_key, p ∉ seen := by
      intro p hp
      rcases List.mem_map.mp hp with ⟨lr, hlr, rfl⟩
      have := List.of_mem_filter (p := fun lr => !(seen.contains (phone_key lr))) (by rw [hk]; exact hlr)
      simpa using this
    obtain ⟨htn, hts⟩ := ih (seen ++ kept.map phone_key)
    refine ⟨List.nodup_append.mpr ⟨hknodup, htn, ?_⟩, ?_⟩
    · intro p hp hq
      exact hts p hq (by simp [hp])
    · intro p hp hpseen
      rcases List.mem_append.mp hp with hp1 | hp2
      · exact hknotseen p hp1 hpseen
      · exact hts p hp2 (by simp [hpseen])

/-- C3 (amended): provided the input candidate set itself carries pairwise
distinct normalized phones, the pool built by `build_windowed_pool` has at
most one row per normalized phone.  (Without that proviso the invariant
fails: duplicates admitted within one window batch all survive, see the
counterexample.) -/
theorem c3_pool_phone_nodup_of_input_nodup (df : List Row) (asof : Int)
    (ws : List WindowRule) (t : Int)
    (hdf : (df.map (fun r => norm_phone r.phone)).Nodup) :
    ((build_windowed_pool df asof ws t).map phone_key).Nodup := by
  rw [build_windowed_pool_eq_take, List.map_take]
  exact ((pool_accum_phone_nodup df asof hdf ws []).1).sublist (List.take_sublist _ _)

theorem c3_pool_phone_nodup_witness :
    ((build_windowed_pool [⟨"A", "u", "0812345678", some 3⟩, ⟨"A", "u", "0899999999", some 4⟩] 10
        [⟨"w1", 0, some 30, 1⟩] 5).map phone_key).Nodup :=
  c3_pool_phone_nodup_of_input_nodup _ 10 _ 5 (by decide)

/-- C3 counterexample: two same-phone rows matching the same window are both
admitted to the pool, so two pool rows share a normalized phone. -/
theorem c3_duplicate_phone_same_window :
    (build_windowed_pool [⟨"A", "u", "0812345678", some 3⟩, ⟨"B", "v", "0812345678", some 4⟩] 10
        [⟨"w1", 0, some 30, 1⟩] 5).map phone_key = ["0812345678", "0812345678"] ∧
      ¬ ((build_windowed_pool [⟨"A", "u", "0812345678", some 3⟩, ⟨"B", "v", "0812345678", some 4⟩] 10
        [⟨"w1", 0, some 30, 1⟩] 5).map phone_key).Nodup := by
  refine ⟨by decide, by decide⟩

/-! ## Non-termination of the spillover loop -/

/-- A simple concrete stand-in for the MD5-derived hash, used to instantiate
the parametric theorems and counterexamples on concrete inputs (the failing
runs below use a one-caller roster, whose rotation is the identity for every
offset, so the choice of hash is immaterial). -/
def hash0 : String → Nat := fun _ => 0

/-- If the spillover loop is entered with a non-empty queue while every
caller in the rotation is at capacity ≤ 0, it never terminates: every
iteration hits the `continue` branch and the all-zero-capacity break is
checked only after an assignment. -/
theorem spill_loop_stuck (callers : List String) :
    ∀ (fuel : Nat) (q : List Nat) (rr : List String) (cap : String → Int)
      (assigned : List (Nat × String)),
      q ≠ [] → rr ≠ [] → (∀ c ∈ rr, cap c ≤ 0) →
      spill_loop callers fuel q rr cap assigned = none := by
  intro fuel
  induction fuel with
  | zero => intro q rr cap assigned _ _ _; rfl
  | succ n ih =>
    intro q rr cap assigned hq hrr hcap
    match q, rr with
    | idx :: q2, c :: rr2 =>
      simp only [spill_loop]
      rw [if_pos ⟨by simp, by simp⟩, if_pos (hcap c (by simp))]
      exact ih (idx :: q2) (rr2 ++ [c]) cap assigned (by simp) (by simp) (by
        intro c2 hc2
        apply hcap
        rcases List.mem_append.mp hc2 with h1 | h2
        · simp [h1]
        · simp at h2
          simp [h2])

set_option maxRecDepth 8000 in
set_option maxHeartbeats 4000000 in
/-- C1: `allocate` does not terminate on every well-formed input.  On the
fully well-formed input of two same-source rows, a one-caller roster,
`per_caller_target = 1` and the normalized mix `{"A": 1}`, the primary pass
assigns row 0 and exhausts all capacity; row 1 enters the spillover queue,
and the spillover loop then spins forever (for every fuel bound the model
returns `none`): its stop condition is not checked when all capacities are
already zero at entry, contradicting the claim that the pass stops exactly
when the queue is empty or all remaining capacity is zero. -/
theorem c1_spillover_nonterminating : ∀ fuel : Nat,
    allocate hash0 "2024-01-01" fuel
      [⟨"A", "u", "p1", none⟩, ⟨"A", "u", "p2", none⟩]
      ["c1"] 1 [("A", 1)] = none := by
  intro fuel
  match fuel with
  | 0 => rfl
  | 1 => rfl
  | 2 => rfl
  | n + 3 =>
    have hp : prim_sources hash0 "2024-01-01" ["c1"] (n + 3)
        (List.map (fun kv => kv.1) [("A", (1 : ℚ))])
        (fun src => group_idx [⟨"A", "u", "p1", none⟩, ⟨"A", "u", "p2", none⟩] src)
        (fun _ src => alookupZ (fair_round_split 1 [("A", (1 : ℚ))]) src)
        (fun _ => ((fair_round_split 1 [("A", (1 : ℚ))]).map (fun kv => kv.2)).sum) []
        = some
          (Function.update
            (fun src => group_idx [⟨"A", "u", "p1", none⟩, ⟨"A", "u", "p2", none⟩] src) "A" [1],
          Function.update (fun _ src => alookupZ (fair_round_split 1 [("A", (1 : ℚ))]) src) "c1"
            (Function.update
              ((fun _ src => alookupZ (fair_round_split 1 [("A", (1 : ℚ))]) src) "c1") "A" 0),
          Function.update
            (fun _ => ((fair_round_split 1 [("A", (1 : ℚ))]).map (fun kv => kv.2)).sum) "c1" 0,
          [(0, "c1")]) := rfl
    simp only [allocate]
    rw [if_neg (by decide), if_neg (by decide), hp]
    simp only []
    rw [spill_loop_stuck ["c1"] (n + 3) _ _ _ _ (by decide) (by decide) (by decide)]

set_option maxRecDepth 8000 in
set_option maxHeartbeats 4000000 in
/-- C9: degenerate-but-valid inputs.  The empty-shape cases do hold:
`target_rows ≤ 0` or an empty candidate set give an empty pool, and an empty
pool, empty roster or non-positive per-caller target give an empty
assignment.  But the all-zero-weight mix case fails: on a non-empty pool
whose source is in the mix, `allocate` hangs in the spillover loop instead
of returning an empty assignment (`none` for every fuel bound). -/
theorem c9_degenerate_inputs :
    (∀ (df : List Row) (asof : Int) (ws : List WindowRule),
        build_windowed_pool df asof ws (-3) = []) ∧
    (∀ (asof : Int) (ws : List WindowRule) (t : Int),
        build_windowed_pool [] asof ws t = []) ∧
    (∀ (hash : String → Nat) (today : String) (fuel : Nat) (callers : List String) (t : Int)
        (mix : List (String × ℚ)), allocate hash today fuel [] callers t mix = some []) ∧
    (∀ (hash : String → Nat) (today : String) (fuel : Nat) (pool : List Row) (t : Int)
        (mix : List (String × ℚ)), allocate hash today fuel pool [] t mix = some []) ∧
    (∀ (hash : String → Nat) (today : String) (fuel : Nat) (pool : List Row)
        (callers : List String) (mix : List (String × ℚ)),
        allocate hash today fuel pool callers 0 mix = some []) ∧
    (∀ fuel : Nat,
        allocate hash0 "2024-01-01" fuel [⟨"A", "u", "p1", none⟩] ["c1"] 1 [("A", 0)] = none) := by
  refine ⟨fun df asof ws => rfl, ?_, fun _ _ _ _ _ _ => rfl, ?_, ?_, ?_⟩
  · intro asof ws t
    rw [build_windowed_pool_eq_take, pool_accum_nil_df]
    simp
  · intro hash today fuel pool t mix
    by_cases h : pool = [] <;> simp [allocate, h]
  · intro hash today fuel pool callers mix
    by_cases h : pool = [] <;> simp [allocate, h]
  · intro fuel
    match fuel with
    | 0 => rfl
    | n + 1 =>
      have hp : prim_sources hash0 "2024-01-01" ["c1"] (n + 1)
          (List.map (fun kv => kv.1) [("A", (0 : ℚ))])
          (fun src => group_idx [⟨"A", "u", "p1", none⟩] src)
          (fun _ src => alookupZ (fair_round_split 1 [("A", (0 : ℚ))]) src)
          (fun _ => ((fair_round_split 1 [("A", (0 : ℚ))]).map (fun kv => kv.2)).sum) []
          = some
            (Function.update (fun src => group_idx [⟨"A", "u", "p1", none⟩] src) "A" [0],
            (fun _ src => alookupZ (fair_round_split 1 [("A", (0 : ℚ))]) src),
            (fun _ => ((fair_round_split 1 [("A", (0 : ℚ))]).map (fun kv => kv.2)).sum),
            []) := rfl
      simp only [allocate]
      rw [if_neg (by decide), if_neg (by decide), hp]
      simp only []
      rw [spill_loop_stuck ["c1"] (n + 1) _ _ _ _ (by decide) (by decide) (by decide)]

/-- C5: determinism.  Both stages of the engine are pure functions of the
candidate set, the as-of date, the rules, the target, the pool, the roster,
the per-caller target, the mix, the run-date string and the (fixed) hash:
two runs on equal inputs yield equal pool and assignment outputs. -/
theorem c5_determinism (hash : String → Nat) (today : String) (fuel : Nat)
    (df1 df2 : List Row) (asof1 asof2 : Int) (ws1 ws2 : List WindowRule) (t1 t2 : Int)
    (pool1 pool2 : List Row) (cs1 cs2 : List String) (pct1 pct2 : Int)
    (mix1 mix2 : List (String × ℚ))
    (hdf : df1 = df2) (hasof : asof1 = asof2) (hws : ws1 = ws2) (ht : t1 = t2)
    (hpool : pool1 = pool2) (hcs : cs1 = cs2) (hpct : pct1 = pct2) (hmix : mix1 = mix2) :
    build_windowed_pool df1 asof1 ws1 t1 = build_windowed_pool df2 asof2 ws2 t2 ∧
      allocate hash today fuel pool1 cs1 pct1 mix1
        = allocate hash today fuel pool2 cs2 pct2 mix2 := by
  subst hdf hasof hws ht hpool hcs hpct hmix
  exact ⟨rfl, rfl⟩

theorem c5_determinism_witness :
    build_windowed_pool [⟨"A", "u", "0812345678", some 3⟩] 10 [⟨"w1", 0, some 30, 1⟩] 1
        = build_windowed_pool [⟨"A", "u", "0812345678", some 3⟩] 10 [⟨"w1", 0, some 30, 1⟩] 1 ∧
      allocate hash0 "2024-05-01" 9 [⟨"A", "u", "p1", none⟩] ["c1"] 1 [("A", 1)]
        = allocate hash0 "2024-05-01" 9 [⟨"A", "u", "p1", none⟩] ["c1"] 1 [("A", 1)] :=
  c5_determinism hash0 "2024-05-01" 9 _ _ 10 10 _ _ 1 1 _ _ _ _ 1 1 _ _
    rfl rfl rfl rfl rfl rfl rfl rfl

/-! ## Order lemmas for the split's sort key -/

theorem charListLt_asymm : ∀ (as bs : List Char),
    charListLt as bs = true → charListLt bs as = false := by
  intro as
  induction as with
  | nil => intro bs h; cases bs <;> simp_all [charListLt]
  | cons a as ih =>
    intro bs h
    cases bs with
    | nil => simp [charListLt] at h
    | cons b bs =>
      simp only [charListLt] at h ⊢
      rcases lt_trichotomy a b with hab | hab | hab
      · have hba : ¬ b < a := asymm hab
        simp [hab, hba]
      · subst hab
        simp only [lt_irrefl, if_false] at h ⊢
        exact ih bs h
      · have hba : ¬ a < b := asymm hab
        simp [hab, hba] at h

theorem charListLt_trans : ∀ (as bs cs : List Char),
    charListLt as bs = true → charListLt bs cs = true → charListLt as cs = true := by
  intro as
  induction as with
  | nil =>
    intro bs cs h1 h2
    cases bs with
    | nil => simp [charListLt] at h1
    | cons b bs => cases cs with
      | nil => simp [charListLt] at h2
      | cons c cs => simp [charListLt]
  | cons a as ih =>
    intro bs cs h1 h2
    cases bs with
    | nil => simp [charListLt] at h1
    | cons b bs =>
      cases cs with
      | nil => simp [charListLt] at h2
      | cons c cs =>
        simp only [charListLt] at h1 h2 ⊢
        rcases lt_trichotomy a b with hab | hab | hab
        · rcases lt_trichotomy b c with hbc | hbc | hbc
          · simp [lt_trans hab hbc]
          · subst hbc; simp [hab]
          · have h3 : ¬ b < c := asymm hbc
            simp [h3, hbc] at h2
        · subst hab
          rcases lt_trichotomy a c with hac | hac | hac
          · simp [hac]
          · subst hac
            simp only [lt_irrefl, if_false] at h1 h2 ⊢
            exact ih bs cs h1 h2
          · have h3 : ¬ a < c := asymm hac
            simp [h3, hac] at h2
        · have h3 : ¬ a < b := asymm hab
          simp [h3, hab] at h1

theorem charListLt_connex : ∀ (as bs : List Char),
    as ≠ bs → charListLt as bs = true ∨ charListLt bs as = true := by
  intro as
  induction as with
  | nil =>
    intro bs h
    cases bs with
    | nil => exact absurd rfl h
    | cons b bs => left; simp [charListLt]
  | cons a as ih =>
    intro bs h
    cases bs with
    | nil => right; simp [charListLt]
    | cons b bs =>
      rcases lt_trichotomy a b with hab | hab | hab
      · left; simp [charListLt, hab]
      · subst hab
        have hne : as ≠ bs := fun hcon => h (by rw [hcon])
        rcases ih bs hne with h1 | h1
        · left; simp [charListLt, lt_irrefl, h1]
        · right; simp [charListLt, lt_irrefl, h1]
      · right; simp [charListLt, hab, asymm hab]

theorem strLeB_total (a b : String) : strLeB a b = true ∨ strLeB b a = true := by
  unfold strLeB
  by_cases h : charListLt b.data a.data = true
  · right
    simp [charListLt_asymm _ _ h]
  · left
    simp at h
    simp [h]

theorem strLeB_trans (a b c : String) (h1 : strLeB a b = true) (h2 : strLeB b c = true) :
    strLeB a c = true := by
  unfold strLeB at h1 h2 ⊢
  simp only [Bool.not_eq_true'] at h1 h2 ⊢
  by_contra hcon
  simp only [Bool.not_eq_false] at hcon
  by_cases he : a.data = b.data
  · rw [he] at hcon
    rw [hcon] at h2
    exact Bool.noConfusion h2
  · rcases charListLt_connex a.data b.data he with h3 | h3
    · have h4 := charListLt_trans _ _ _ hcon h3
      rw [h4] at h2
      exact Bool.noConfusion h2
    · rw [h3] at h1
      exact Bool.noConfusion h1

theorem strLeB_ne_lt (a b : String) (h : strLeB a b = true) (hne : a ≠ b) :
    charListLt a.data b.data = true := by
  unfold strLeB at h
  simp only [Bool.not_eq_true'] at h
  have hdata : a.data ≠ b.data := by
    intro he
    apply hne
    cases a
    cases b
    cases he
    rfl
  rcases charListLt_connex a.data b.data hdata with h1 | h1
  · exact h1
  · rw [h1] at h
    exact Bool.noConfusion h

theorem remainder_key_le_total (rem : String → ℚ) (a b : String) :
    remainder_key_le rem a b = true ∨ remainder_key_le rem b a = true := by
  unfold remainder_key_le
  rcases lt_trichotomy (rem a) (rem b) with h | h | h
  · right; simp [h]
  · rcases strLeB_total a b with h2 | h2
    · left; simp [h, h2]
    · right; simp [h, h2]
  · left; simp [h]

theorem remainder_key_le_trans (rem : String → ℚ) (a b c : String)
    (h1 : remainder_key_le rem a b = true) (h2 : remainder_key_le rem b c = true) :
    remainder_key_le rem a c = true := by
  unfold remainder_key_le at h1 h2 ⊢
  simp only [Bool.or_eq_true, Bool.and_eq_true, decide_eq_true_eq] at h1 h2 ⊢
  rcases h1 with h1 | ⟨h1e, h1s⟩
  · rcases h2 with h2 | ⟨h2e, h2s⟩
    · left; exact lt_trans h2 h1
    · left; rw [← h2e]; exact h1
  · rcases h2 with h2 | ⟨h2e, h2s⟩
    · left; rw [h1e]; exact h2
    · right; exact ⟨h1e.trans h2e, strLeB_trans a b c h1s h2s⟩

/-! ## Association list and sum helpers -/

theorem find?_alist_map {β γ : Type} (l : List (String × β)) (f : String → β → γ) (k : String) :
    (l.map (fun kv => (kv.1, f kv.1 kv.2))).find? (fun kv => decide (kv.1 = k))
      = (l.find? (fun kv => decide (kv.1 = k))).map (fun kv => (kv.1, f kv.1 kv.2)) := by
  induction l with
  | nil => rfl
  | cons kv tl ih =>
    by_cases h : kv.1 = k
    · simp [List.find?, h]
    · simp only [List.map_cons, List.find?, h, decide_False]
      exact ih

theorem sum_map_div (l : List ℚ) (s : ℚ) : (l.map (fun x => x / s)).sum = l.sum / s := by
  induction l with
  | nil => simp
  | cons x tl ih => simp [ih, add_div]

theorem floor_sum_le (l : List ℚ) : (((l.map (fun x => ⌊x⌋)).sum : ℤ) : ℚ) ≤ l.sum := by
  induction l with
  | nil => simp
  | cons x tl ih =>
    simp only [List.map_cons, List.sum_cons, Int.cast_add]
    exact add_le_add (Int.floor_le x) ih

theorem sum_sub_len_le_floor_sum (l : List ℚ) :
    l.sum - l.length ≤ (((l.map (fun x => ⌊x⌋)).sum : ℤ) : ℚ) := by
  induction l with
  | nil => simp
  | cons x tl ih =>
    simp only [List.map_cons, List.sum_cons, List.length_cons, Int.cast_add]
    have h1 : x - 1 ≤ (⌊x⌋ : ℚ) := le_of_lt (Int.sub_one_lt_floor x)
    calc x + tl.sum - ((tl.length + 1 : ℕ) : ℚ)
        = (x - 1) + (tl.sum - tl.length) := by push_cast; ring
      _ ≤ (⌊x⌋ : ℚ) + (((tl.map (fun x => ⌊x⌋)).sum : ℤ) : ℚ) := add_le_add h1 ih

theorem contains_iff_mem (l : List String) (a : String) : l.contains a = true ↔ a ∈ l :=
  List.elem_iff

theorem contains_eq_false_iff (l : List String) (a : String) : l.contains a = false ↔ a ∉ l := by
  constructor
  · intro h hmem
    rw [(contains_iff_mem l a).mpr hmem] at h
    exact Bool.noConfusion h
  · intro h
    cases hb : l.contains a
    · rfl
    · exact absurd ((contains_iff_mem l a).mp hb) h

theorem sum_contains_ind (keys : List String) :
    ∀ (top : List String), keys.Nodup → top.Nodup → (∀ x ∈ top, x ∈ keys) →
      (keys.map (fun k => if top.contains k then (1 : ℤ) else 0)).sum = top.length := by
  induction keys with
  | nil =>
    intro top _ _ hsub
    have : top = [] := List.eq_nil_iff_forall_not_mem.mpr (fun a ha => by
      simpa using hsub a ha)
    simp [this]
  | cons k ks ih =>
    intro top hknd htnd hsub
    have hknotin : k ∉ ks := (List.nodup_cons.mp hknd).1
    have hksnd : ks.Nodup := (List.nodup_cons.mp hknd).2
    by_cases hk : k ∈ top
    · have hcont : top.contains k = true := (contains_iff_mem _ _).mpr hk
      have herase_nd : (top.erase k).Nodup := htnd.erase k
      have herase_sub : ∀ x ∈ top.erase k, x ∈ ks := by
        intro x hx
        obtain ⟨hxk, hxtop⟩ := (htnd.mem_erase_iff).mp hx
        rcases List.mem_cons.mp (hsub x hxtop) with rfl | h2
        · exact absurd rfl hxk
        · exact h2
      have hcongr : (ks.map (fun k2 => if top.contains k2 then (1 : ℤ) else 0)).sum
          = (ks.map (fun k2 => if (top.erase k).contains k2 then (1 : ℤ) else 0)).sum := by
        apply congrArg
        apply List.map_congr_left
        intro x hx
        have hxk : x ≠ k := fun hcon => hknotin (hcon ▸ hx)
        by_cases hxt : x ∈ top
        · have h1 : top.contains x = true := (contains_iff_mem _ _).mpr hxt
          have h2 : (top.erase k).contains x = true :=
            (contains_iff_mem _ _).mpr ((htnd.mem_erase_iff).mpr ⟨hxk, hxt⟩)
          rw [h1, h2]
        · have h1 : top.contains x = false := (contains_eq_false_iff _ _).mpr hxt
          have h2 : (top.erase k).contains x = false := (contains_eq_false_iff _ _).mpr (by
            intro hcon
            exact hxt (List.mem_of_mem_erase hcon))
          rw [h1, h2]
      have hlen : (top.erase k).length + 1 = top.length := by
        have h3 := List.length_erase_of_mem hk
        have hpos : 0 < top.length := List.length_pos.mpr (by
          intro hcon
          rw [hcon] at hk
          simp at hk)
        omega
      simp only [List.map_cons, List.sum_cons, hcont, if_pos]
      rw [hcongr, ih (top.erase k) hksnd herase_nd herase_sub]
      omega
    · have hcont : top.contains k = false := (contains_eq_false_iff _ _).mpr hk
      have hsub2 : ∀ x ∈ top, x ∈ ks := by
        intro x hx
        rcases List.mem_cons.mp (hsub x hx) with rfl | h2
        · exact absurd hx hk
        · exact h2
      simp only [List.map_cons, List.sum_cons, hcont]
      rw [if_neg (by simp), zero_add]
      exact ih top hksnd htnd hsub2

theorem sum_map_val_add_ind (l : List (String × Int)) (top : List String) :
    ((l.map (fun kv => if top.contains kv.1 then (kv.1, kv.2 + 1) else kv)).map
        (fun kv => kv.2)).sum
      = (l.map (fun kv => kv.2)).sum
        + ((l.map Prod.fst).map (fun k => if top.contains k then (1 : ℤ) else 0)).sum := by
  induction l with
  | nil => simp
  | cons kv tl ih =>
    by_cases h : top.contains kv.1
    · simp only [List.map_cons, List.sum_cons, h, if_pos, ih]
      ring
    · simp only [List.map_cons, List.sum_cons, h, if_neg, Bool.false_eq_true,
        not_false_iff, ih]
      ring

/-! ## C4: the fair round split -/

/-- The exact (pre-rounding) share of key `k` in the largest-remainder
method: `total` times the key's clipped weight, normalized by the sum of
all clipped weights. -/
def exact_share (total : Int) (w : List (String × ℚ)) (k : String) : ℚ :=
  (total : ℚ) * (max 0 (alookupQ w k) / (w.map (fun kv => max 0 kv.2)).sum)

/-- The fractional remainder of key `k` after flooring its exact share. -/
def frac_rem (total : Int) (w : List (String × ℚ)) (k : String) : ℚ :=
  exact_share total w k - ⌊exact_share total w k⌋

theorem alookupQ_map_eq {β : Type} (l : List (String × β)) (f : String → β → ℚ) (k : String) :
    alookupQ (l.map (fun kv => (kv.1, f kv.1 kv.2))) k
      = match l.find? (fun kv => decide (kv.1 = k)) with
        | some kv => f kv.1 kv.2
        | none => 0 := by
  unfold alookupQ
  rw [find?_alist_map]
  cases l.find? (fun kv => decide (kv.1 = k)) <;> rfl

theorem alookupZ_map_eq {β : Type} (l : List (String × β)) (f : String → β → ℤ) (k : String) :
    alookupZ (l.map (fun kv => (kv.1, f kv.1 kv.2))) k
      = match l.find? (fun kv => decide (kv.1 = k)) with
        | some kv => f kv.1 kv.2
        | none => 0 := by
  unfold alookupZ
  rw [find?_alist_map]
  cases l.find? (fun kv => decide (kv.1 = k)) <;> rfl

theorem alookupQ_self (w : List (String × ℚ)) (hnd : (w.map Prod.fst).Nodup) :
    ∀ kv ∈ w, alookupQ w kv.1 = kv.2 := by
  induction w with
  | nil => intro kv h; simp at h
  | cons h tl ih =>
    intro kv hkv
    have hnd2 : (tl.map Prod.fst).Nodup := (List.nodup_cons.mp (by simpa using hnd)).2
    have hh : h.1 ∉ tl.map Prod.fst := (List.nodup_cons.mp (by simpa using hnd)).1
    rcases List.mem_cons.mp hkv with rfl | htl
    · unfold alookupQ
      simp [List.find?]
    · have hne : h.1 ≠ kv.1 := by
        intro hcon
        exact hh (hcon ▸ List.mem_map.mpr ⟨kv, htl, rfl⟩)
      unfold alookupQ
      simp only [List.find?, hne, decide_False]
      exact ih hnd2 kv htl

theorem fair_round_split_spec (total : Int) (w : List (String × ℚ))
    (hnd : (w.map Prod.fst).Nodup)
    (h0 : ¬ (total ≤ 0 ∨ w = []))
    (hS : 0 < (w.map (fun kv => max 0 kv.2)).sum) :
    ∃ top : List String,
      top.Nodup ∧
      (∀ x ∈ top, x ∈ w.map Prod.fst) ∧
      ((top.length : ℤ) = total - (w.map (fun kv => ⌊exact_share total w kv.1⌋)).sum) ∧
      fair_round_split total w
        = w.map (fun kv =>
            (kv.1, ⌊exact_share total w kv.1⌋ + (if top.contains kv.1 then 1 else 0))) ∧
      (∀ k ∈ top, ∀ k2 ∈ w.map Prod.fst, k2 ∉ top →
        remainder_key_le (fun k3 => frac_rem total w k3) k k2 = true) := by
  have hSne : (w.map (fun kv => max 0 kv.2)).sum ≠ 0 := ne_of_gt hS
  have hshare : ∀ kv ∈ w, exact_share total w kv.1
      = (total : ℚ) * (max 0 kv.2 / (w.map (fun kv => max 0 kv.2)).sum) := by
    intro kv hkv
    unfold exact_share
    rw [alookupQ_self w hnd kv hkv]
  have hlookQ : ∀ k, alookupQ ((w.map (fun kv => (kv.1, max 0 kv.2))).map
      (fun kv => (kv.1, kv.2 / ((w.map (fun kv => (kv.1, max 0 kv.2))).map (fun kv => kv.2)).sum))) k
      = max 0 (alookupQ w k) / (w.map (fun kv => max 0 kv.2)).sum := by
    intro k
    rw [alookupQ_map_eq (w.map (fun kv => (kv.1, max 0 kv.2)))
      (fun _ v => v / ((w.map (fun kv => (kv.1, max 0 kv.2))).map (fun kv => kv.2)).sum) k]
    rw [find?_alist_map w (fun _ v => max 0 v) k]
    unfold alookupQ
    cases h : w.find? (fun kv => decide (kv.1 = k)) with
    | none => simp
    | some kv =>
      simp only [Option.map_some, List.map_map]
      congr 2
  have hsEq : ((w.map (fun kv => (kv.1, max 0 kv.2))).map (fun kv => kv.2)).sum
      = (w.map (fun kv => max 0 kv.2)).sum := by
    rw [List.map_map]
    rfl
  have hs2 : ¬ ((w.map (fun kv => (kv.1, max 0 kv.2))).map (fun kv => kv.2)).sum ≤ 0 := by
    rw [hsEq]
    exact not_le.mpr hS
  have hremEq : (fun k => (total : ℚ) * alookupQ ((w.map (fun kv => (kv.1, max 0 kv.2))).map
        (fun kv => (kv.1, kv.2 / ((w.map (fun kv => (kv.1, max 0 kv.2))).map (fun kv => kv.2)).sum))) k
        - ⌊(total : ℚ) * alookupQ ((w.map (fun kv => (kv.1, max 0 kv.2))).map
        (fun kv => (kv.1, kv.2 / ((w.map (fun kv => (kv.1, max 0 kv.2))).map (fun kv => kv.2)).sum))) k⌋)
      = fun k3 => frac_rem total w k3 := by
    funext k
    rw [hlookQ k]
    unfold frac_rem exact_share
    rfl
  have hbase : ((w.map (fun kv => (kv.1, max 0 kv.2))).map
      (fun kv => (kv.1, kv.2 / ((w.map (fun kv => (kv.1, max 0 kv.2))).map (fun kv => kv.2)).sum))).map
        (fun kv => (kv.1, ⌊(total : ℚ) * kv.2⌋))
      = w.map (fun kv => (kv.1, ⌊exact_share total w kv.1⌋)) := by
    rw [List.map_map, List.map_map]
    apply List.map_congr_left
    intro kv hkv
    show (kv.1, ⌊(total : ℚ) * ((max 0 kv.2) / ((w.map (fun kv => (kv.1, max 0 kv.2))).map (fun kv => kv.2)).sum)⌋)
      = (kv.1, ⌊exact_share total w kv.1⌋)
    rw [hsEq, hshare kv hkv]
  have hshare_list : w.map (fun kv => exact_share total w kv.1)
      = (w.map (fun kv => max 0 kv.2)).map
          (fun x => (total : ℚ) * (x / (w.map (fun kv => max 0 kv.2)).sum)) := by
    rw [List.map_map]
    apply List.map_congr_left
    intro kv hkv
    exact hshare kv hkv
  have hshare_sum : (w.map (fun kv => exact_share total w kv.1)).sum = (total : ℚ) := by
    rw [hshare_list]
    have h1 : ((w.map (fun kv => max 0 kv.2)).map
        (fun x => (total : ℚ) * (x / (w.map (fun kv => max 0 kv.2)).sum))).sum
        = (total : ℚ) * (((w.map (fun kv => max 0 kv.2)).map
            (fun x => x / (w.map (fun kv => max 0 kv.2)).sum)).sum) := by
      rw [List.sum_map_mul_left]
    rw [h1, sum_map_div, div_self hSne, mul_one]
  have hfloors_le : (w.map (fun kv => ⌊exact_share total w kv.1⌋)).sum ≤ total := by
    have h1 := floor_sum_le (w.map (fun kv => exact_share total w kv.1))
    rw [hshare_sum, List.map_map] at h1
    exact_mod_cast h1
  have hfloors_ge : total - (w.length : ℤ) ≤ (w.map (fun kv => ⌊exact_share total w kv.1⌋)).sum := by
    have h1 := sum_sub_len_le_floor_sum (w.map (fun kv => exact_share total w kv.1))
    rw [hshare_sum, List.map_map, List.length_map] at h1
    exact_mod_cast h1
  have hassigned : (((((w.map (fun kv => (kv.1, max 0 kv.2))).map
      (fun kv => (kv.1, kv.2 / ((w.map (fun kv => (kv.1, max 0 kv.2))).map (fun kv => kv.2)).sum))).map
        (fun kv => (kv.1, ⌊(total : ℚ) * kv.2⌋))).map (fun kv => kv.2)).sum)
      = (w.map (fun kv => ⌊exact_share total w kv.1⌋)).sum := by
    rw [hbase, List.map_map]
    rfl
  simp only [fair_round_split]
  rw [if_neg h0, if_neg hs2]
  rw [hassigned, hremEq, hbase]
  have hkeys : ((w.map (fun kv => (kv.1, max 0 kv.2))).map
      (fun kv => (kv.1, kv.2 / ((w.map (fun kv => (kv.1, max 0 kv.2))).map (fun kv => kv.2)).sum))).map
        (fun kv => kv.1) = w.map Prod.fst := by
    rw [List.map_map, List.map_map]
    rfl
  rw [hkeys]
  by_cases hrem0 : (0 ⊔ (total - (List.map (fun kv => ⌊exact_share total w kv.1⌋) w).sum) : ℤ) = 0
  · rw [if_pos hrem0]
    have hzero : total - (w.map (fun kv => ⌊exact_share total w kv.1⌋)).sum = 0 := by
      rcases le_or_lt (total - (w.map (fun kv => ⌊exact_share total w kv.1⌋)).sum) 0 with h | h
      · omega
      · rw [max_eq_right (le_of_lt h)] at hrem0
        omega
    refine ⟨[], List.nodup_nil, by simp, by simpa using hzero.symm, ?_, by simp⟩
    apply List.map_congr_left
    intro kv hkv
    simp [List.contains]
  · rw [if_neg hrem0]
    have hge : 0 ≤ total - (w.map (fun kv => ⌊exact_share total w kv.1⌋)).sum := by omega
    have hrmax : (0 ⊔ (total - (List.map (fun kv => ⌊exact_share total w kv.1⌋) w).sum) : ℤ)
        = total - (w.map (fun kv => ⌊exact_share total w kv.1⌋)).sum := max_eq_right hge
    rw [hrmax]
    have horder_perm := sortLE_perm (remainder_key_le (fun k3 => frac_rem total w k3)) (w.map Prod.fst)
    have hordernd : (sortLE (remainder_key_le (fun k3 => frac_rem total w k3)) (w.map Prod.fst)).Nodup :=
      sortLE_nodup _ _ hnd
    have horderlen : (sortLE (remainder_key_le (fun k3 => frac_rem total w k3)) (w.map Prod.fst)).length
        = w.length := by
      rw [sortLE_length, List.length_map]
    have hRle : (total - (w.map (fun kv => ⌊exact_share total w kv.1⌋)).sum).toNat
        ≤ (sortLE (remainder_key_le (fun k3 => frac_rem total w k3)) (w.map Prod.fst)).length := by
      rw [horderlen]
      omega
    refine ⟨(sortLE (remainder_key_le (fun k3 => frac_rem total w k3)) (w.map Prod.fst)).take
        (total - (w.map (fun kv => ⌊exact_share total w kv.1⌋)).sum).toNat,
      hordernd.sublist (List.take_sublist _ _), ?_, ?_, ?_, ?_⟩
    · intro x hx
      exact (mem_sortLE _ _ x).mp (List.mem_of_mem_take hx)
    · rw [List.length_take]
      omega
    · rw [List.map_map]
      apply List.map_congr_left
      intro kv hkv
      by_cases hc : ((sortLE (remainder_key_le (fun k3 => frac_rem total w k3)) (w.map Prod.fst)).take
          (total - (w.map (fun kv => ⌊exact_share total w kv.1⌋)).sum).toNat).contains kv.1 = true
      · simp only [Function.comp]
        rw [hc]
        simp
      · simp only [Function.comp]
        rw [Bool.not_eq_true] at hc
        rw [hc]
        simp
    · intro k hk k2 hk2 hk2n
      have hpw := sortLE_pairwise (remainder_key_le (fun k3 => frac_rem total w k3))
        (remainder_key_le_total _) (remainder_key_le_trans _) (w.map Prod.fst)
      rw [← List.take_append_drop
        (total - (w.map (fun kv => ⌊exact_share total w kv.1⌋)).sum).toNat
        (sortLE (remainder_key_le (fun k3 => frac_rem total w k3)) (w.map Prod.fst))] at hpw
      have hk2order : k2 ∈ sortLE (remainder_key_le (fun k3 => frac_rem total w k3)) (w.map Prod.fst) :=
        (mem_sortLE _ _ k2).mpr hk2
      rw [← List.take_append_drop
        (total - (w.map (fun kv => ⌊exact_share total w kv.1⌋)).sum).toNat
        (sortLE (remainder_key_le (fun k3 => frac_rem total w k3)) (w.map Prod.fst))] at hk2order
      rcases List.mem_append.mp hk2order with h2 | h2
      · exact absurd h2 hk2n
      · exact (List.pairwise_append.mp hpw).2.2 k hk k2 h2


/-- C4 (amended): `_fair_round_split` keeps the key set, returns only
non-negative values, returns all zeros when every weight is ≤ 0 (so the sum
is 0, not `total` — see the counterexample), and when some weight is
positive the values sum exactly to `total` and realize the largest-remainder
method: every key receives the floor of its exact share or one more, and a
key receiving the extra unit has a fractional remainder at least that of
every key that does not, ties broken by ascending (lexicographic) key. -/
theorem c4_fair_round_split (total : Int) (w : List (String × ℚ))
    (hnd : (w.map Prod.fst).Nodup) (htot : 0 ≤ total) :
    (fair_round_split total w).map Prod.fst = w.map Prod.fst ∧
    (∀ kv ∈ fair_round_split total w, 0 ≤ kv.2) ∧
    ((∀ kv ∈ w, kv.2 ≤ 0) → ∀ kv ∈ fair_round_split total w, kv.2 = 0) ∧
    ((∃ kv ∈ w, 0 < kv.2) →
      ((fair_round_split total w).map (fun kv => kv.2)).sum = total) ∧
    ((∃ kv ∈ w, 0 < kv.2) → ∀ k ∈ w.map Prod.fst,
      alookupZ (fair_round_split total w) k = ⌊exact_share total w k⌋ ∨
      alookupZ (fair_round_split total w) k = ⌊exact_share total w k⌋ + 1) ∧
    ((∃ kv ∈ w, 0 < kv.2) → ∀ k ∈ w.map Prod.fst, ∀ k2 ∈ w.map Prod.fst,
      alookupZ (fair_round_split total w) k = ⌊exact_share total w k⌋ + 1 →
      alookupZ (fair_round_split total w) k2 = ⌊exact_share total w k2⌋ →
      k ≠ k2 →
      (frac_rem total w k2 < frac_rem total w k ∨
        (frac_rem total w k = frac_rem total w k2 ∧ charListLt k.data k2.data = true))) := by
  by_cases h0 : total ≤ 0 ∨ w = []
  · have hz : fair_round_split total w = w.map (fun kv => (kv.1, 0)) := by
      unfold fair_round_split
      rw [if_pos h0]
    have hlook : ∀ k, alookupZ (fair_round_split total w) k = 0 := by
      intro k
      rw [hz, alookupZ_map_eq w (fun _ _ => 0) k]
      cases w.find? (fun kv => decide (kv.1 = k)) <;> rfl
    have htotz : (∃ kv ∈ w, 0 < kv.2) → total = 0 ∧ w ≠ [] := by
      rintro ⟨kv, hkv, _⟩
      rcases h0 with h | h
      · exact ⟨le_antisymm h htot, fun hcon => by rw [hcon] at hkv; simp at hkv⟩
      · rw [h] at hkv; simp at hkv
    refine ⟨?_, ?_, ?_, ?_, ?_, ?_⟩
    · rw [hz, List.map_map]; rfl
    · intro kv hkv
      rw [hz] at hkv
      rcases List.mem_map.mp hkv with ⟨kv0, _, rfl⟩
      exact le_refl 0
    · intro _ kv hkv
      rw [hz] at hkv
      rcases List.mem_map.mp hkv with ⟨kv0, _, rfl⟩
      rfl
    · intro hex
      obtain ⟨ht0, _⟩ := htotz hex
      rw [hz, List.map_map, ht0]
      exact List.sum_eq_zero (fun x hx => by
        rcases List.mem_map.mp hx with ⟨kv0, _, rfl⟩
        rfl)
    · intro hex k hk
      obtain ⟨ht0, _⟩ := htotz hex
      left
      rw [hlook k, ht0]
      unfold exact_share
      push_cast
      rw [zero_mul]
      simp
    · intro hex k hk k2 hk2 hinc _ _
      obtain ⟨ht0, _⟩ := htotz hex
      rw [hlook k, ht0] at hinc
      unfold exact_share at hinc
      push_cast at hinc
      rw [zero_mul] at hinc
      simp at hinc
  · by_cases hS : 0 < (w.map (fun kv => max 0 kv.2)).sum
    · obtain ⟨top, htopnd, htopsub, htoplen, hsplit, hprio⟩ :=
        fair_round_split_spec total w hnd h0 hS
      push_neg at h0
      have htpos : 0 < total := h0.1
      have hshare_nonneg : ∀ k, (0 : ℚ) ≤ exact_share total w k := by
        intro k
        unfold exact_share
        apply mul_nonneg (by exact_mod_cast htot)
        apply div_nonneg (le_max_left 0 _) (le_of_lt hS)
      have hlookR : ∀ k ∈ w.map Prod.fst,
          alookupZ (fair_round_split total w) k
            = ⌊exact_share total w k⌋ + (if top.contains k then 1 else 0) := by
        intro k hk
        rw [hsplit, alookupZ_map_eq w
          (fun a _ => ⌊exact_share total w a⌋ + (if top.contains a then 1 else 0)) k]
        rcases List.mem_map.mp hk with ⟨kv0, hkv0, rfl⟩
        have hfs : ∃ x ∈ w, (fun kv => decide (kv.1 = kv0.1)) x = true := ⟨kv0, hkv0, by simp⟩
        obtain ⟨kv1, hfind⟩ := Option.isSome_iff_exists.mp (List.find?_isSome.mpr hfs)
        rw [hfind]
        have heq := List.find?_some hfind
        simp only [decide_eq_true_eq] at heq
        show ⌊exact_share total w kv1.1⌋ + (if top.contains kv1.1 then 1 else 0)
          = ⌊exact_share total w kv0.1⌋ + (if top.contains kv0.1 then 1 else 0)
        rw [heq]
      refine ⟨?_, ?_, ?_, ?_, ?_, ?_⟩
      · rw [hsplit, List.map_map]
        rfl
      · intro kv hkv
        rw [hsplit] at hkv
        rcases List.mem_map.mp hkv with ⟨kv0, _, rfl⟩
        show (0 : ℤ) ≤ ⌊exact_share total w kv0.1⌋ + (if top.contains kv0.1 then 1 else 0)
        have h1 : (0 : ℤ) ≤ ⌊exact_share total w kv0.1⌋ := by
          rw [Int.le_floor]
          exact_mod_cast hshare_nonneg kv0.1
        by_cases hc : top.contains kv0.1 = true
        · rw [if_pos hc]
          omega
        · rw [if_neg hc]
          omega
      · intro hall kv hkv
        have hz : (w.map (fun kv => max 0 kv.2)).sum = 0 := List.sum_eq_zero (fun x hx => by
          rcases List.mem_map.mp hx with ⟨kv0, hkv0, rfl⟩
          exact max_eq_left (hall kv0 hkv0))
        rw [hz] at hS
        exact absurd hS (lt_irrefl 0)
      · intro _
        rw [hsplit, List.map_map]
        show (w.map (fun kv =>
          ⌊exact_share total w kv.1⌋ + (if top.contains kv.1 then (1 : ℤ) else 0))).sum = total
        rw [List.sum_map_add]
        have h2 : w.map (fun kv => if top.contains kv.1 then (1 : ℤ) else 0)
            = (w.map Prod.fst).map (fun k => if top.contains k then (1 : ℤ) else 0) := by
          rw [List.map_map]
          rfl
        rw [h2, sum_contains_ind (w.map Prod.fst) top hnd htopnd htopsub]
        omega
      · intro _ k hk
        rw [hlookR k hk]
        by_cases hc : top.contains k = true
        · right
          rw [if_pos hc]
        · left
          rw [if_neg hc, add_zero]
      · intro _ k hk k2 hk2 hinc hnotinc hne
        rw [hlookR k hk] at hinc
        rw [hlookR k2 hk2] at hnotinc
        have hkmem : top.contains k = true := by
          by_cases hc : top.contains k = true
          · exact hc
          · rw [if_neg hc, add_zero] at hinc
            omega
        have hk2notmem : ¬ (top.contains k2 = true) := by
          intro hc
          rw [if_pos hc] at hnotinc
          omega
        have hktop : k ∈ top := (contains_iff_mem _ _).mp hkmem
        have hk2top : k2 ∉ top := fun hc => hk2notmem ((contains_iff_mem _ _).mpr hc)
        have hrel := hprio k hktop k2 hk2 hk2top
        unfold remainder_key_le at hrel
        simp only [Bool.or_eq_true, Bool.and_eq_true, decide_eq_true_eq] at hrel
        rcases hrel with h | ⟨he, hs2⟩
        · left
          exact h
        · right
          exact ⟨he, strLeB_ne_lt k k2 hs2 hne⟩
    · have hSle : (w.map (fun kv => max 0 kv.2)).sum ≤ 0 := not_lt.mp hS
      have hsEq2 : ((w.map (fun kv => (kv.1, max 0 kv.2))).map (fun kv => kv.2)).sum
          = (w.map (fun kv => max 0 kv.2)).sum := by
        rw [List.map_map]
        rfl
      have hz : fair_round_split total w = w.map (fun kv => (kv.1, 0)) := by
        unfold fair_round_split
        rw [if_neg h0, if_pos (by rw [hsEq2]; exact hSle)]
      have hcontra : (∃ kv ∈ w, 0 < kv.2) → False := by
        rintro ⟨kv, hkv, hpos⟩
        have h1 : max 0 kv.2 ∈ w.map (fun kv => max 0 kv.2) := List.mem_map.mpr ⟨kv, hkv, rfl⟩
        have h2 := List.single_le_sum (l := w.map (fun kv => max 0 kv.2)) (fun x hx => by
          rcases List.mem_map.mp hx with ⟨kv0, _, rfl⟩
          exact le_max_left 0 _) _ h1
        have h3 : (0 : ℚ) < max 0 kv.2 := lt_max_iff.mpr (Or.inr hpos)
        linarith
      refine ⟨?_, ?_, ?_, fun hex => (hcontra hex).elim, fun hex => (hcontra hex).elim,
        fun hex => (hcontra hex).elim⟩
      · rw [hz, List.map_map]
        rfl
      · intro kv hkv
        rw [hz] at hkv
        rcases List.mem_map.mp hkv with ⟨kv0, _, rfl⟩
        exact le_refl 0
      · intro _ kv hkv
        rw [hz] at hkv
        rcases List.mem_map.mp hkv with ⟨kv0, _, rfl⟩
        rfl

/-- C4 counterexample: with the non-empty weight map `{"a": 0}` and
`total = 1`, the split returns all zeros, so the returned values sum to 0,
not to `total`: the unconditional sum-exactness clause is false. -/
theorem c4_zero_weight_sum_cex :
    fair_round_split 1 [("a", 0)] = [("a", 0)] ∧
      ((fair_round_split 1 [("a", 0)]).map (fun kv => kv.2)).sum = 0 ∧ (0 : ℤ) ≠ 1 :=
  ⟨by decide, by decide, by decide⟩

theorem c4_fair_round_split_witness :
    ((fair_round_split 5 [("A", mkRat 7 10), ("B", mkRat 3 10)]).map (fun kv => kv.2)).sum = 5 :=
  (c4_fair_round_split 5 [("A", mkRat 7 10), ("B", mkRat 3 10)] (by decide)
    (by decide)).2.2.2.1 ⟨("A", mkRat 7 10), by decide, by decide⟩

/-! ## The balancing pass: frame and convergence -/

theorem set_caller_map_fst :
    ∀ (out : List (Row × String)) (i : Nat) (t : String),
      (set_caller out i t).map Prod.fst = out.map Prod.fst := by
  intro out
  induction out with
  | nil => intro i t; rfl
  | cons p tl ih =>
    intro i t
    cases i with
    | zero => simp [set_caller, List.getD]
    | succ j =>
      have h2 : set_caller (p :: tl) (j + 1) t = p :: set_caller tl j t := by
        simp [set_caller, List.getD]
      rw [h2]
      simp only [List.map_cons]
      rw [ih j t]

theorem bal_step_map_fst (st : List (Row × String) × (String → Int) × Bool)
    (dt : String × String) :
    (bal_step st dt).1.map Prod.fst = st.1.map Prod.fst := by
  cases h : (caller_rows st.1 dt.1).getLast? with
  | none => simp [bal_step, h]
  | some ridx => simp [bal_step, h, set_caller_map_fst]

theorem bal_fold_map_fst :
    ∀ (pairs : List (String × String)) (st : List (Row × String) × (String → Int) × Bool),
      ((pairs.foldl bal_step st).1).map Prod.fst = (st.1).map Prod.fst := by
  intro pairs
  induction pairs with
  | nil => intro st; rfl
  | cons dt rest ih =>
    intro st
    rw [List.foldl_cons, ih (bal_step st dt), bal_step_map_fst]

/-- C8: the balancing pass only rewrites `caller_id` labels.  Whenever the
balancing loop finishes, the sequence of row payloads (every non-`caller_id`
field, position by position) is unchanged — hence so are the assigned row
multiset and the total number of assigned rows. -/
theorem c8_balancing_frame (callers : List String) (desired : String → Int) :
    ∀ (fuel : Nat) (out : List (Row × String)) (counts : String → Int)
      (res : List (Row × String)),
      bal_loop callers desired fuel out counts = some res →
      res.map Prod.fst = out.map Prod.fst ∧ res.length = out.length := by
  intro fuel
  induction fuel with
  | zero => intro out counts res h; exact Option.noConfusion h
  | succ n ih =>
    intro out counts res h
    simp only [bal_loop] at h
    by_cases hdt : callers.filter (fun c => decide (desired c < counts c)) = [] ∨
        callers.filter (fun c => decide (counts c < desired c)) = []
    · rw [if_pos hdt] at h
      cases h
      exact ⟨rfl, rfl⟩
    · rw [if_neg hdt] at h
      by_cases hm : (bal_pass out counts
          ((callers.filter (fun c => decide (desired c < counts c))).zip
            (callers.filter (fun c => decide (counts c < desired c))))).2.2 = true
      · rw [if_pos hm] at h
        obtain ⟨h1, h2⟩ := ih _ _ res h
        unfold bal_pass at h1
        rw [bal_fold_map_fst] at h1
        refine ⟨h1, ?_⟩
        have := congrArg List.length h1
        simpa using this
      · rw [if_neg hm] at h
        cases h
        constructor
        · unfold bal_pass
          rw [bal_fold_map_fst]
        · unfold bal_pass
          have := congrArg List.length (bal_fold_map_fst
            ((callers.filter (fun c => decide (desired c < counts c))).zip
              (callers.filter (fun c => decide (counts c < desired c)))) (out, counts, false))
          simpa using this

theorem c8_balancing_frame_witness :
    bal_loop ["c1", "c2"] (fun _ => 1) 5
        [(⟨"A", "u", "p1", none⟩, "c1"), (⟨"A", "u", "p2", none⟩, "c1")]
        (fun c => if c = "c1" then 2 else 0)
      = some [(⟨"A", "u", "p1", none⟩, "c1"), (⟨"A", "u", "p2", none⟩, "c2")] ∧
    ([(⟨"A", "u", "p1", none⟩, "c1"), (⟨"A", "u", "p2", none⟩, "c2")].map Prod.fst
      = [((⟨"A", "u", "p1", none⟩ : Row), "c1"), (⟨"A", "u", "p2", none⟩, "c1")].map Prod.fst) := by
  refine ⟨by decide, ?_⟩
  exact (c8_balancing_frame ["c1", "c2"] (fun _ => 1) 5
    [(⟨"A", "u", "p1", none⟩, "c1"), (⟨"A", "u", "p2", none⟩, "c1")]
    (fun c => if c = "c1" then 2 else 0)
    [(⟨"A", "u", "p1", none⟩, "c1"), (⟨"A", "u", "p2", none⟩, "c2")] (by decide)).1

theorem count_caller_cons (q : Row × String) (l : List (Row × String)) (c : String) :
    count_caller (q :: l) c = count_caller l c + (if q.2 = c then 1 else 0) := by
  by_cases hq : q.2 = c <;> simp [count_caller, List.filter_cons, hq]

theorem count_caller_pos_rows (out : List (Row × String)) (d : String)
    (h : 0 < count_caller out d) : caller_rows out d ≠ [] := by
  have h1 : (out.filter (fun rc => decide (rc.2 = d))) ≠ [] := by
    intro hcon
    unfold count_caller at h
    rw [hcon] at h
    simp at h
  obtain ⟨rc, hrc⟩ := List.exists_mem_of_ne_nil _ h1
  have hrc2 := List.mem_filter.mp hrc
  obtain ⟨i, hi, hget⟩ := List.mem_iff_getElem.mp hrc2.1
  intro hcon
  have hmem : i ∈ caller_rows out d := by
    unfold caller_rows
    refine List.mem_filter.mpr ⟨List.mem_range.mpr hi, ?_⟩
    have : out.getD i default = rc := by
      rw [List.getD_eq_getElem?_getD]
      simp [List.getElem?_eq_getElem hi, hget]
    rw [this]
    exact hrc2.2
  rw [hcon] at hmem
  simp at hmem

theorem caller_rows_getLast?_spec (out : List (Row × String)) (d : String) (i : Nat)
    (h : (caller_rows out d).getLast? = some i) :
    i < out.length ∧ (out.getD i default).2 = d := by
  have hmem : i ∈ caller_rows out d := by
    obtain ⟨l2, hl2⟩ := List.getLast?_eq_some_iff.mp h
    rw [hl2]
    simp
  have h2 := List.mem_filter.mp hmem
  exact ⟨List.mem_range.mp h2.1, by simpa using h2.2⟩

theorem countZ_set_caller (out : List (Row × String)) :
    ∀ (i : Nat) (t d c : String), i < out.length → (out.getD i default).2 = d →
    (count_caller (set_caller out i t) c : ℤ)
      = count_caller out c + (if t = c then 1 else 0) - (if d = c then 1 else 0) := by
  induction out with
  | nil => intro i t d c hi _; simp at hi
  | cons p tl ih =>
    intro i t d c hi hd
    cases i with
    | zero =>
      have hp : p.2 = d := by simpa [List.getD] using hd
      have hset : set_caller (p :: tl) 0 t = (p.1, t) :: tl := by
        simp [set_caller, List.getD]
      rw [hset, count_caller_cons, count_caller_cons]
      by_cases ht : t = c <;> by_cases hdc : d = c <;>
        simp [ht, hdc, hp] <;> push_cast <;> omega
    | succ j =>
      have hset : set_caller (p :: tl) (j + 1) t = p :: set_caller tl j t := by
        simp [set_caller, List.getD]
      have hj : j < tl.length := by simpa using hi
      have hdj : (tl.getD j default).2 = d := by simpa [List.getD] using hd
      rw [hset, count_caller_cons, count_caller_cons]
      have := ih j t d c hj hdj
      push_cast
      push_cast at this
      omega

theorem sum_map_update (l : List String) :
    ∀ (f : String → ℤ) (c : String) (v : ℤ), l.Nodup → c ∈ l →
      (l.map (Function.update f c v)).sum = (l.map f).sum + v - f c := by
  induction l with
  | nil => intro f c v _ hc; simp at hc
  | cons a t ih =>
    intro f c v hnd hc
    have hat : a ∉ t := (List.nodup_cons.mp hnd).1
    have htnd : t.Nodup := (List.nodup_cons.mp hnd).2
    rcases List.mem_cons.mp hc with hca | hct
    · subst hca
      simp only [List.map_cons, List.sum_cons, Function.update_same]
      have hmap : t.map (Function.update f c v) = t.map f := by
        apply List.map_congr_left
        intro x hx
        have hxc : x ≠ c := by
          intro hcon
          rw [hcon] at hx
          exact hat hx
        exact Function.update_noteq hxc v f
      rw [hmap]
      ring
    · have hac : a ≠ c := by
        intro hcon
        rw [hcon] at hat
        exact hat hct
      simp only [List.map_cons, List.sum_cons]
      rw [Function.update_noteq hac, ih f c v htnd hct]
      ring

theorem sum_ind_one (l : List String) :
    ∀ (x : String), l.Nodup → x ∈ l →
      (l.map (fun c => if x = c then (1 : ℤ) else 0)).sum = 1 := by
  induction l with
  | nil => intro x _ hx; simp at hx
  | cons a t ih =>
    intro x hnd hx
    have hat : a ∉ t := (List.nodup_cons.mp hnd).1
    have htnd : t.Nodup := (List.nodup_cons.mp hnd).2
    rcases List.mem_cons.mp hx with hxa | hxt
    · subst hxa
      simp only [List.map_cons, List.sum_cons]
      have hz : (t.map (fun c => if x = c then (1 : ℤ) else 0)).sum = 0 :=
        List.sum_eq_zero (fun y hy => by
          rcases List.mem_map.mp hy with ⟨c2, hc2, rfl⟩
          rw [if_neg (by intro hcon; rw [hcon] at hat; exact hat hc2)])
      rw [hz]
      simp
    · have hxa : x ≠ a := by
        intro hcon
        rw [hcon] at hxt
        exact hat hxt
      simp only [List.map_cons, List.sum_cons, if_neg hxa, zero_add]
      exact ih x htnd hxt

theorem sum_count_out (callers : List String) (hnd : callers.Nodup) :
    ∀ (out : List (Row × String)), (∀ p ∈ out, p.2 ∈ callers) →
      (callers.map (fun c => (count_caller out c : ℤ))).sum = out.length := by
  intro out
  induction out with
  | nil =>
    intro _
    simp only [List.length_nil, Nat.cast_zero]
    exact List.sum_eq_zero (fun x hx => by
      rcases List.mem_map.mp hx with ⟨c, _, rfl⟩
      simp [count_caller])
  | cons p tl ih =>
    intro hmem
    have h1 : callers.map (fun c => (count_caller (p :: tl) c : ℤ))
        = callers.map (fun c => (count_caller tl c : ℤ) + (if p.2 = c then 1 else 0)) := by
      apply List.map_congr_left
      intro c _
      rw [count_caller_cons]
      push_cast
      ring
    rw [h1, List.sum_map_add, ih (fun q hq => hmem q (by simp [hq])),
      sum_ind_one callers p.2 hnd (hmem p (by simp))]
    simp only [List.length_cons]
    push_cast
    ring

theorem le_sum_eq_ptwise (l : List String) :
    ∀ (f g : String → ℤ), (∀ c ∈ l, f c ≤ g c) →
      (l.map f).sum = (l.map g).sum → ∀ c ∈ l, f c = g c := by
  induction l with
  | nil => intro f g _ _ c hc; simp at hc
  | cons a t ih =>
    intro f g hle hsum c hc
    have h1 : (t.map f).sum ≤ (t.map g).sum :=
      List.sum_le_sum (fun x hx => hle x (by simp [hx]))
    have h2 : f a ≤ g a := hle a (by simp)
    simp only [List.map_cons, List.sum_cons] at hsum
    have h3 : f a = g a := by omega
    have h4 : (t.map f).sum = (t.map g).sum := by omega
    rcases List.mem_cons.mp hc with rfl | hct
    · exact h3
    · exact ih f g (fun x hx => hle x (by simp [hx])) h4 c hct

theorem bal_step_flag (st : List (Row × String) × (String → Int) × Bool)
    (dt : String × String) (h : st.2.2 = true) : (bal_step st dt).2.2 = true := by
  cases hl : (caller_rows st.1 dt.1).getLast? with
  | none => simpa [bal_step, hl] using h
  | some ridx => simp [bal_step, hl]

theorem bal_fold_flag :
    ∀ (pairs : List (String × String)) (st : List (Row × String) × (String → Int) × Bool),
      st.2.2 = true → ((pairs.foldl bal_step st).2.2 = true) := by
  intro pairs
  induction pairs with
  | nil => intro st h; exact h
  | cons dt rest ih =>
    intro st h
    rw [List.foldl_cons]
    exact ih (bal_step st dt) (bal_step_flag st dt h)

theorem desired_nonneg (hash : String → Nat) (today : String) (callers : List String)
    (total n : Nat) (c : String) : 0 ≤ desired_of hash today callers total n c := by
  unfold desired_of
  have h1 : (0 : ℤ) ≤ ((total / n : Nat) : ℤ) := Int.ofNat_nonneg _
  split <;> omega

theorem idxOf_ind_sum (l : List String) :
    ∀ (r : Nat), l.Nodup →
      (l.map (fun c => if l.indexOf c < r then (1 : ℤ) else 0)).sum
        = ((min r l.length : Nat) : ℤ) := by
  induction l with
  | nil => intro r _; simp
  | cons a t ih =>
    intro r hnd
    have hat : a ∉ t := (List.nodup_cons.mp hnd).1
    have htnd : t.Nodup := (List.nodup_cons.mp hnd).2
    have htail : t.map (fun c => if (a :: t).indexOf c < r then (1 : ℤ) else 0)
        = t.map (fun c => if t.indexOf c + 1 < r then (1 : ℤ) else 0) := by
      apply List.map_congr_left
      intro c hc
      have hca : c ≠ a := by
        intro hcon
        rw [hcon] at hc
        exact hat hc
      rw [List.indexOf_cons_ne _ (Ne.symm hca)]
    simp only [List.map_cons, List.sum_cons, List.indexOf_cons_self, htail]
    cases r with
    | zero =>
      have hz : (t.map (fun c => if t.indexOf c + 1 < 0 then (1 : ℤ) else 0)).sum = 0 :=
        List.sum_eq_zero (fun y hy => by
          rcases List.mem_map.mp hy with ⟨c2, _, rfl⟩
          simp)
      simp [hz]
    | succ s =>
      have hcong : t.map (fun c => if t.indexOf c + 1 < s + 1 then (1 : ℤ) else 0)
          = t.map (fun c => if t.indexOf c < s then (1 : ℤ) else 0) := by
        apply List.map_congr_left
        intro c _
        by_cases hlt : t.indexOf c < s
        · rw [if_pos hlt, if_pos (by omega)]
        · rw [if_neg hlt, if_neg (by omega)]
      rw [hcong, ih s htnd, if_pos (by omega)]
      simp only [List.length_cons]
      push_cast
      omega

theorem desired_sum (hash : String → Nat) (today : String) (callers : List String)
    (hnd : callers.Nodup) (hne : callers ≠ []) (total : Nat) :
    (callers.map (desired_of hash today callers total callers.length)).sum = total := by
  have h1 : callers.map (desired_of hash today callers total callers.length)
      = callers.map (fun c => (((total / callers.length : Nat)) : ℤ)
          + (if (bal_order hash today callers).indexOf c < total % callers.length
             then 1 else 0)) := rfl
  rw [h1, List.sum_map_add]
  have hperm : (bal_order hash today callers).Perm callers := sortLE_perm _ _
  have h2 : (callers.map (fun c =>
        if (bal_order hash today callers).indexOf c < total % callers.length
        then (1 : ℤ) else 0)).sum
      = ((bal_order hash today callers).map (fun c =>
        if (bal_order hash today callers).indexOf c < total % callers.length
        then (1 : ℤ) else 0)).sum := ((hperm.map _).sum_eq).symm
  rw [h2, idxOf_ind_sum (bal_order hash today callers) (total % callers.length)
    (sortLE_nodup _ _ hnd)]
  have h3 : (callers.map (fun _ => (((total / callers.length : Nat)) : ℤ))).sum
      = callers.length • (((total / callers.length : Nat)) : ℤ) := by
    rw [List.map_const', List.sum_replicate]
  rw [h3]
  have hlen : (bal_order hash today callers).length = callers.length :=
    sortLE_length _ _
  have hpos : 0 < callers.length := List.length_pos.mpr hne
  have hmod : total % callers.length < callers.length := Nat.mod_lt total hpos
  have hdm := Nat.div_add_mod total callers.length
  rw [hlen]
  rw [min_eq_left (by omega)]
  rw [nsmul_eq_mul]
  exact_mod_cast hdm

theorem update2_apply (f : String → ℤ) (d t c : String) :
    Function.update (Function.update f d (f d - 1)) t
        ((Function.update f d (f d - 1)) t + 1) c
      = f c + (if t = c then 1 else 0) - (if d = c then 1 else 0) := by
  simp only [Function.update_apply]
  split_ifs <;> subst_vars <;> first | omega | simp_all

theorem bal_step_inv (callers : List String)
    (st : List (Row × String) × (String → Int) × Bool) (dt : String × String)
    (hc : ∀ c, st.2.1 c = (count_caller st.1 c : ℤ))
    (hm : ∀ p ∈ st.1, p.2 ∈ callers) (ht : dt.2 ∈ callers) :
    (∀ c, (bal_step st dt).2.1 c = (count_caller (bal_step st dt).1 c : ℤ)) ∧
      (∀ p ∈ (bal_step st dt).1, p.2 ∈ callers) := by
  cases hl : (caller_rows st.1 dt.1).getLast? with
  | none =>
    constructor
    · intro c; simpa [bal_step, hl] using hc c
    · intro p hp
      simp only [bal_step, hl] at hp
      exact hm p hp
  | some ridx =>
    obtain ⟨hi, hd⟩ := caller_rows_getLast?_spec st.1 dt.1 ridx hl
    constructor
    · intro c
      have hcnt := countZ_set_caller st.1 ridx dt.2 dt.1 c hi hd
      simp only [bal_step, hl]
      rw [hcnt, update2_apply, hc c]
    · intro p hp
      simp only [bal_step, hl] at hp
      unfold set_caller at hp
      rcases List.mem_or_eq_of_mem_set hp with h | h
      · exact hm p h
      · rw [h]; exact ht

theorem bal_fold_inv (callers : List String) :
    ∀ (pairs : List (String × String)),
      (∀ q ∈ pairs, q.2 ∈ callers) →
      ∀ (st : List (Row × String) × (String → Int) × Bool),
        (∀ c, st.2.1 c = (count_caller st.1 c : ℤ)) →
        (∀ p ∈ st.1, p.2 ∈ callers) →
        (∀ c, (pairs.foldl bal_step st).2.1 c
            = (count_caller (pairs.foldl bal_step st).1 c : ℤ)) ∧
          (∀ p ∈ (pairs.foldl bal_step st).1, p.2 ∈ callers) := by
  intro pairs
  induction pairs with
  | nil => intro _ st hc hm; exact ⟨hc, hm⟩
  | cons dt rest ih =>
    intro hq st hc hm
    rw [List.foldl_cons]
    obtain ⟨hc2, hm2⟩ := bal_step_inv callers st dt hc hm (hq dt (by simp))
    exact ih (fun q hqr => hq q (by simp [hqr])) (bal_step st dt) hc2 hm2

theorem bal_fold_length (pairs : List (String × String))
    (st : List (Row × String) × (String → Int) × Bool) :
    (pairs.foldl bal_step st).1.length = st.1.length := by
  have h := congrArg List.length (bal_fold_map_fst pairs st)
  simpa using h

theorem bal_loop_post (hash : String → Nat) (today : String) (callers : List String)
    (hnd : callers.Nodup) (hne : callers ≠ []) (total : Nat) :
    ∀ (fuel : Nat) (out : List (Row × String)) (counts : String → Int)
      (res : List (Row × String)),
      (∀ c, counts c = (count_caller out c : ℤ)) →
      (∀ p ∈ out, p.2 ∈ callers) →
      out.length = total →
      bal_loop callers (desired_of hash today callers total callers.length) fuel out counts
        = some res →
      ∀ c ∈ callers, (count_caller res c : ℤ)
        = desired_of hash today callers total callers.length c := by
  intro fuel
  induction fuel with
  | zero => intro out counts res _ _ _ hres; simp [bal_loop] at hres
  | succ f ih =>
    intro out counts res hc hm hlen hres
    have hsum1 : (callers.map counts).sum = (total : ℤ) := by
      have h1 : callers.map counts = callers.map (fun c => (count_caller out c : ℤ)) :=
        List.map_congr_left (fun c _ => hc c)
      rw [h1, sum_count_out callers hnd out hm, hlen]
    have hsum2 := desired_sum hash today callers hnd hne total
    simp only [bal_loop] at hres
    split at hres
    case isTrue hdt =>
      have heq : out = res := by injection hres
      subst heq
      rcases hdt with h | h
      · have hle : ∀ c ∈ callers,
            counts c ≤ desired_of hash today callers total callers.length c := by
          intro c hcm
          by_contra hlt
          push_neg at hlt
          have hmemf : c ∈ callers.filter
              (fun c => decide (desired_of hash today callers total callers.length c
                < counts c)) :=
            List.mem_filter.mpr ⟨hcm, by simpa using hlt⟩
          rw [h] at hmemf
          simp at hmemf
        intro c hcm
        have := le_sum_eq_ptwise callers counts
          (desired_of hash today callers total callers.length) hle
          (hsum1.trans hsum2.symm) c hcm
        rw [← this, hc c]
      · have hle : ∀ c ∈ callers,
            desired_of hash today callers total callers.length c ≤ counts c := by
          intro c hcm
          by_contra hlt
          push_neg at hlt
          have hmemf : c ∈ callers.filter
              (fun c => decide (counts c
                < desired_of hash today callers total callers.length c)) :=
            List.mem_filter.mpr ⟨hcm, by simpa using hlt⟩
          rw [h] at hmemf
          simp at hmemf
        intro c hcm
        have := le_sum_eq_ptwise callers
          (desired_of hash today callers total callers.length) counts hle
          (hsum2.trans hsum1.symm) c hcm
        rw [this, hc c]
    case isFalse hdt =>
      push_neg at hdt
      obtain ⟨hdne, htne⟩ := hdt
      have hpairs : ∀ q ∈ (callers.filter
            (fun c => decide (desired_of hash today callers total callers.length c
              < counts c))).zip
          (callers.filter
            (fun c => decide (counts c
              < desired_of hash today callers total callers.length c))),
          q.2 ∈ callers := by
        intro q hq
        exact List.mem_of_mem_filter (List.of_mem_zip hq).2
      obtain ⟨hc2, hm2⟩ := bal_fold_inv callers _ hpairs (out, counts, false) hc hm
      obtain ⟨d0, ds, hds⟩ := List.exists_cons_of_ne_nil hdne
      obtain ⟨t0, ts, hts⟩ := List.exists_cons_of_ne_nil htne
      have hd0 : desired_of hash today callers total callers.length d0 < counts d0 := by
        have hmemf : d0 ∈ callers.filter
            (fun c => decide (desired_of hash today callers total callers.length c
              < counts c)) := by
          rw [hds]; simp
        simpa using (List.mem_filter.mp hmemf).2
      have hcnt0 : 0 < count_caller out d0 := by
        have h1 := desired_nonneg hash today callers total callers.length d0
        have h2 := hc d0
        omega
      have hrows := count_caller_pos_rows out d0 hcnt0
      have hflag : (bal_pass out counts ((callers.filter
            (fun c => decide (desired_of hash today callers total callers.length c
              < counts c))).zip
          (callers.filter
            (fun c => decide (counts c
              < desired_of hash today callers total callers.length c))))).2.2
          = true := by
        unfold bal_pass
        rw [hds, hts]
        have hzip : (d0 :: ds).zip (t0 :: ts) = (d0, t0) :: ds.zip ts := rfl
        rw [hzip, List.foldl_cons]
        apply bal_fold_flag
        cases hgl : (caller_rows out d0).getLast? with
        | none =>
          exact absurd (by simpa using congrArg Option.isSome hgl)
            (by simpa using (List.getLast?_isSome (l := caller_rows out d0)).mpr hrows)
        | some r0 => simp [bal_step, hgl]
      rw [if_pos hflag] at hres
      exact ih _ _ res hc2 hm2
        (by rw [bal_fold_length]; exact hlen) hres

theorem rotate_mem (xs : List String) (i : Nat) (c : String)
    (h : c ∈ rotate_list xs i) : c ∈ xs := by
  unfold rotate_list at h
  split at h
  · exact h
  · rcases List.mem_append.mp h with h2 | h2
    · exact List.mem_of_mem_drop h2
    · exact List.mem_of_mem_take h2

theorem prim_loop_mem (callers : List String) (src : String) :
    ∀ (fuel : Nat) (q : List Nat) (rr : List String) (quotas : String → String → Int)
      (cap : String → Int) (assigned : List (Nat × String))
      (out : List Nat × (String → String → Int) × (String → Int) × List (Nat × String)),
      (∀ c ∈ rr, c ∈ callers) → (∀ p ∈ assigned, p.2 ∈ callers) →
      prim_loop src fuel q rr quotas cap assigned = some out →
      ∀ p ∈ out.2.2.2, p.2 ∈ callers := by
  intro fuel
  induction fuel with
  | zero => intro q rr quotas cap assigned out _ _ hres; simp [prim_loop] at hres
  | succ f ih =>
    intro q rr quotas cap assigned out hrr ha hres
    simp only [prim_loop] at hres
    split at hres
    · split at hres
      · rename_i idx q2 c rr2 hcond
        have hrr2 : ∀ x ∈ rr2 ++ [c], x ∈ callers := by
          intro x hx
          rcases List.mem_append.mp hx with h2 | h2
          · exact hrr x (by simp [h2])
          · simp at h2
            subst h2
            exact hrr x (by simp)
        split at hres
        · exact ih (idx :: q2) (rr2 ++ [c]) quotas cap assigned out hrr2 ha hres
        · have ha2 : ∀ p ∈ assigned ++ [(idx, c)], p.2 ∈ callers := by
            intro p hp
            rcases List.mem_append.mp hp with h2 | h2
            · exact ha p h2
            · simp at h2
              subst h2
              exact hrr c (by simp)
          exact ih q2 (rr2 ++ [c]) _ _ (assigned ++ [(idx, c)]) out hrr2 ha2 hres
      · have heq : (q, quotas, cap, assigned) = out := by injection hres
        rw [← heq]
        exact ha
    · have heq : (q, quotas, cap, assigned) = out := by injection hres
      rw [← heq]
      exact ha

theorem prim_sources_mem (hash : String → Nat) (today : String) (callers : List String)
    (fuel : Nat) :
    ∀ (srcs : List String) (perSource : String → List Nat)
      (quotas : String → String → Int) (cap : String → Int)
      (assigned : List (Nat × String))
      (out : (String → List Nat) × (String → String → Int) × (String → Int) × List (Nat × String)),
      (∀ p ∈ assigned, p.2 ∈ callers) →
      prim_sources hash today callers fuel srcs perSource quotas cap assigned = some out →
      ∀ p ∈ out.2.2.2, p.2 ∈ callers := by
  intro srcs
  induction srcs with
  | nil =>
    intro perSource quotas cap assigned out ha hres
    have heq : (perSource, quotas, cap, assigned) = out := by
      simpa [prim_sources] using hres
    rw [← heq]
    exact ha
  | cons src rest ih =>
    intro perSource quotas cap assigned out ha hres
    simp only [prim_sources] at hres
    split at hres
    · exact ih perSource quotas cap assigned out ha hres
    · split at hres
      · simp at hres
      · rename_i q2 quotas2 cap2 assigned2 hpl
        have ha2 : ∀ p ∈ assigned2, p.2 ∈ callers :=
          prim_loop_mem callers src fuel _ _ quotas cap assigned
            (q2, quotas2, cap2, assigned2)
            (fun c hc => rotate_mem callers _ c hc) ha hpl
        exact ih _ quotas2 cap2 assigned2 out ha2 hres

theorem spill_loop_mem (callers : List String) :
    ∀ (fuel : Nat) (rcq : List Nat) (rr : List String) (cap : String → Int)
      (assigned : List (Nat × String)) (out : (String → Int) × List (Nat × String)),
      (∀ c ∈ rr, c ∈ callers) → (∀ p ∈ assigned, p.2 ∈ callers) →
      spill_loop callers fuel rcq rr cap assigned = some out →
      ∀ p ∈ out.2, p.2 ∈ callers := by
  intro fuel
  induction fuel with
  | zero => intro rcq rr cap assigned out _ _ hres; simp [spill_loop] at hres
  | succ f ih =>
    intro rcq rr cap assigned out hrr ha hres
    simp only [spill_loop] at hres
    split at hres
    · split at hres
      · rename_i idx rcq2 c rr2 hcond
        have hrr2 : ∀ x ∈ rr2 ++ [c], x ∈ callers := by
          intro x hx
          rcases List.mem_append.mp hx with h2 | h2
          · exact hrr x (by simp [h2])
          · simp at h2
            subst h2
            exact hrr x (by simp)
        have ha2 : ∀ p ∈ assigned ++ [(idx, c)], p.2 ∈ callers := by
          intro p hp
          rcases List.mem_append.mp hp with h2 | h2
          · exact ha p h2
          · simp at h2
            subst h2
            exact hrr c (by simp)
        split at hres
        · exact ih (idx :: rcq2) (rr2 ++ [c]) cap assigned out hrr2 ha hres
        · split at hres
          · have heq : (Function.update cap c (cap c - 1), assigned ++ [(idx, c)]) = out := by
              injection hres
            rw [← heq]
            exact ha2
          · exact ih rcq2 (rr2 ++ [c]) _ (assigned ++ [(idx, c)]) out hrr2 ha2 hres
      · have heq : (cap, assigned) = out := by injection hres
        rw [← heq]
        exact ha
    · have heq : (cap, assigned) = out := by injection hres
      rw [← heq]
      exact ha

theorem build_out_mem (pool : List Row) (assigned : List (Nat × String))
    (callers : List String) (h : ∀ q ∈ assigned, q.2 ∈ callers) :
    ∀ p ∈ build_out pool assigned, p.2 ∈ callers := by
  intro p hp
  unfold build_out at hp
  rcases List.mem_filterMap.mp hp with ⟨i, _, hmap⟩
  cases hla : last_assign assigned i with
  | none => rw [hla] at hmap; simp at hmap
  | some c =>
    rw [hla] at hmap
    simp only [Option.map_some'] at hmap
    have hcmem : c ∈ callers := by
      unfold last_assign at hla
      cases hgl : (assigned.filter (fun q => q.1 = i)).getLast? with
      | none => rw [hgl] at hla; simp at hla
      | some qq =>
        rw [hgl] at hla
        simp only [Option.map_some', Option.some.injEq] at hla
        have hqm : qq ∈ assigned.filter (fun q => q.1 = i) := by
          obtain ⟨l2, hl2⟩ := List.getLast?_eq_some_iff.mp hgl
          rw [hl2]
          simp
        rw [← hla]
        exact h qq (List.mem_of_mem_filter hqm)
    have hp2 : p = (pool.getD i default, c) := by
      injection hmap with h2
      exact h2.symm
    rw [hp2]
    exact hcmem

theorem desired_spread (hash : String → Nat) (today : String) (callers : List String)
    (total n : Nat) (c c2 : String) :
    desired_of hash today callers total n c ≤ desired_of hash today callers total n c2 + 1 := by
  unfold desired_of
  split <;> split <;> omega

/-- C7: whenever `allocate` returns (given a duplicate-free roster), the
per-caller assigned counts over the whole roster — counting 0 for callers
with no rows — differ pairwise by at most one after the balancing pass,
i.e. `max(count per caller) − min(count per caller) ≤ 1`. -/
theorem c7_balance_bound (hash : String → Nat) (today : String) (fuel : Nat)
    (pool : List Row) (callers : List String) (per_caller_target : Int)
    (mix : List (String × ℚ)) (res : List (Row × String))
    (hnd : callers.Nodup)
    (h : allocate hash today fuel pool callers per_caller_target mix = some res) :
    ∀ c ∈ callers, ∀ c2 ∈ callers,
      count_caller res c ≤ count_caller res c2 + 1 := by
  intro c hcm c2 hcm2
  unfold allocate at h
  split at h
  · have heq : ([] : List (Row × String)) = res := by injection h
    rw [← heq]
    simp [count_caller]
  · split at h
    · have heq : ([] : List (Row × String)) = res := by injection h
      rw [← heq]
      simp [count_caller]
    · rename_i hp hcb
      push_neg at hcb
      simp only [] at h
      split at h
      · simp at h
      · rename_i perSource1 qx cap1 assigned1 heq1
        split at h
        · simp at h
        · rename_i capx assigned2 heq2
          split at h
          · rename_i hout
            have heq : build_out pool assigned2 = res := by injection h
            rw [← heq, hout]
            simp [count_caller]
          · rename_i hout
            have ha1 : ∀ p ∈ assigned1, p.2 ∈ callers :=
              prim_sources_mem hash today callers fuel _ _ _ _ []
                (perSource1, qx, cap1, assigned1) (by simp) heq1
            have ha2 : ∀ p ∈ assigned2, p.2 ∈ callers :=
              spill_loop_mem callers fuel _ _ cap1 assigned1 (capx, assigned2)
                (fun x hx => rotate_mem callers _ x hx) ha1 heq2
            have hmem := build_out_mem pool assigned2 callers ha2
            have hpost := bal_loop_post hash today callers hnd hcb.1
              (build_out pool assigned2).length fuel (build_out pool assigned2)
              (fun c3 => (count_caller (build_out pool assigned2) c3 : ℤ)) res
              (fun _ => rfl) hmem rfl h
            have h1 := hpost c hcm
            have h2 := hpost c2 hcm2
            have h3 := desired_spread hash today callers
              (build_out pool assigned2).length callers.length c c2
            omega

theorem c7_balance_bound_witness :
    allocate hash0 "2024-05-01" 9 [⟨"A", "u", "p1", none⟩] ["c1"] 1 [("A", 1)]
        = some [(⟨"A", "u", "p1", none⟩, "c1")] ∧
      (["c1"] : List String).Nodup ∧
      ∀ c ∈ ["c1"], ∀ c2 ∈ ["c1"],
        count_caller [(⟨"A", "u", "p1", none⟩, "c1")] c
          ≤ count_caller [(⟨"A", "u", "p1", none⟩, "c1")] c2 + 1 :=
  ⟨rfl, by decide,
    c7_balance_bound hash0 "2024-05-01" 9 [⟨"A", "u", "p1", none⟩] ["c1"] 1 [("A", 1)]
      [(⟨"A", "u", "p1", none⟩, "c1")] (by decide) rfl⟩

theorem spill_loop_spec (callers : List String) :
    ∀ (fuel : Nat) (rcq : List Nat) (rr : List String) (cap : String → Int)
      (assigned : List (Nat × String)) (res : (String → Int) × List (Nat × String)),
      spill_loop callers fuel rcq rr cap assigned = some res →
      ∃ new : List (Nat × String),
        res.2 = assigned ++ new ∧
        new.map Prod.fst = rcq.take new.length ∧
        (∀ c, res.1 c = cap c - ((new.filter (fun p => decide (p.2 = c))).length : ℤ)) ∧
        (∀ c, 0 < (new.filter (fun p => decide (p.2 = c))).length → 0 ≤ res.1 c) := by
  intro fuel
  induction fuel with
  | zero => intro rcq rr cap assigned res hres; simp [spill_loop] at hres
  | succ f ih =>
    intro rcq rr cap assigned res hres
    simp only [spill_loop] at hres
    split at hres
    · split at hres
      · rename_i idx rcq2 c rr2 hcond
        split at hres
        · exact ih (idx :: rcq2) (rr2 ++ [c]) cap assigned res hres
        · rename_i hcap
          push_neg at hcap
          split at hres
          · have heq : (Function.update cap c (cap c - 1), assigned ++ [(idx, c)]) = res := by
              injection hres
            refine ⟨[(idx, c)], ?_, ?_, ?_, ?_⟩
            · rw [← heq]
            · simp
            · intro c2
              rw [← heq]
              by_cases hc2 : c2 = c
              · subst hc2
                simp [Function.update_apply]
              · simp [Function.update_apply, hc2, Ne.symm hc2]
            · intro c2 hpos
              rw [← heq]
              by_cases hc2 : c2 = c
              · subst hc2
                simp only [Function.update_apply, if_pos rfl]
                omega
              · exfalso
                revert hpos
                simp [Ne.symm hc2]
          · obtain ⟨new, h1, h2, h3, h4⟩ := ih rcq2 (rr2 ++ [c])
              (Function.update cap c (cap c - 1)) (assigned ++ [(idx, c)]) res hres
            refine ⟨(idx, c) :: new, ?_, ?_, ?_, ?_⟩
            · rw [h1]
              simp [List.append_assoc]
            · simp only [List.map_cons, List.length_cons]
              rw [h2]
              rfl
            · intro c2
              rw [h3 c2]
              by_cases hc2 : c = c2
              · subst hc2
                rw [List.filter_cons]
                simp only [Function.update_apply, if_pos rfl]
                simp
                push_cast
                omega
              · have h5 : Function.update cap c (cap c - 1) c2 = cap c2 :=
                  Function.update_noteq (Ne.symm hc2) _ _
                rw [h5, List.filter_cons]
                simp [hc2]
            · intro c2 hpos
              by_cases hnew : 0 < (new.filter (fun p => decide (p.2 = c2))).length
              · exact h4 c2 hnew
              · have hc2 : c = c2 := by
                  by_contra hne
                  rw [List.filter_cons] at hpos
                  simp [hne] at hpos
                  omega
                subst hc2
                rw [h3 c]
                have hz : (new.filter (fun p => decide (p.2 = c))).length = 0 := by omega
                rw [hz]
                simp [Function.update_apply]
                omega
      · have heq : (cap, assigned) = res := by injection hres
        refine ⟨[], ?_, ?_, ?_, ?_⟩ <;> simp [← heq]
    · have heq : (cap, assigned) = res := by injection hres
      refine ⟨[], ?_, ?_, ?_, ?_⟩ <;> simp [← heq]

theorem pairwise_indexOf_le (l : List String) (h : l.Nodup) :
    l.Pairwise (fun a b => l.indexOf a ≤ l.indexOf b) := by
  induction l with
  | nil => simp
  | cons a t ih =>
    have hat : a ∉ t := (List.nodup_cons.mp h).1
    have htnd : t.Nodup := (List.nodup_cons.mp h).2
    refine List.pairwise_cons.mpr ⟨?_, ?_⟩
    · intro b _
      simp [List.indexOf_cons_self]
    · refine List.Pairwise.imp_of_mem ?_ (ih htnd)
      intro x y hx hy hxy
      have hax : a ≠ x := by intro hc; subst hc; exact hat hx
      have hay : a ≠ y := by intro hc; subst hc; exact hat hy
      rw [List.indexOf_cons_ne _ hax, List.indexOf_cons_ne _ hay]
      omega

/-- C2 counterexample: a pool row whose `source_key` is not a key of
`source_mix` is left unassigned by the primary pass but never reaches the
spillover queue — it is silently dropped even though a caller still has
remaining overall capacity.  Row 0 has source `"X"`, the mix is `{A: 1.0}`,
and caller `c1` has overall capacity 2, yet only row 1 is assigned: the
spillover queue after the primary pass (leftover queues written back, `A`
exhausted) is empty although row 0 sits unassigned in the `"X"` queue. -/
theorem c2_unmixed_source_dropped :
    allocate hash0 "2024-05-01" 9
        [⟨"X", "u", "p0", none⟩, ⟨"A", "u", "p1", none⟩] ["c1"] 2 [("A", 1)]
      = some [(⟨"A", "u", "p1", none⟩, "c1")] ∧
    spill_queue
        (Function.update
          (fun src => group_idx [⟨"X", "u", "p0", none⟩, ⟨"A", "u", "p1", none⟩] src)
          "A" [])
        [("A", 1)] = [] ∧
    (0 : Nat) ∈ group_idx [⟨"X", "u", "p0", none⟩, ⟨"A", "u", "p1", none⟩] "X" := by
  refine ⟨rfl, by decide, by decide⟩

/-- C2 (amended): the spillover queue collects exactly the rows left in the
per-source leftover queues of the sources that appear in `source_mix` —
rows of sources outside the mix are never enqueued.  The queue
concatenates those leftover queues in descending source-weight order with
ties broken by mix insertion order, and the spillover loop pops the queue
in order, assigns only to roster callers, and never gives a caller more
rows than its remaining overall capacity. -/
theorem c2_spillover_queue (perSource : String → List Nat) (mix : List (String × ℚ))
    (hnd : (mix.map (fun kv => kv.1)).Nodup) :
    (∀ i, i ∈ spill_queue perSource mix ↔
        ∃ src ∈ mix.map (fun kv => kv.1), i ∈ perSource src) ∧
      (spill_sources mix).Pairwise (fun a b =>
        alookupQ mix b < alookupQ mix a ∨
          (alookupQ mix b = alookupQ mix a ∧
            (mix.map (fun kv => kv.1)).indexOf a ≤ (mix.map (fun kv => kv.1)).indexOf b)) ∧
      ∀ (callers : List String) (fuel : Nat) (rr : List String) (cap : String → Int)
        (res : (String → Int) × List (Nat × String)),
        (∀ x ∈ rr, x ∈ callers) →
        spill_loop callers fuel (spill_queue perSource mix) rr cap [] = some res →
        (∀ p ∈ res.2, p.2 ∈ callers) ∧
          res.2.map Prod.fst = (spill_queue perSource mix).take res.2.length ∧
          ∀ c : String, ((res.2.filter (fun p => decide (p.2 = c))).length : ℤ) ≤
            max 0 (cap c) := by
  refine ⟨?_, ?_, ?_⟩
  · intro i
    unfold spill_queue spill_sources
    rw [List.mem_flatten]
    constructor
    · rintro ⟨l, hl, hil⟩
      rcases List.mem_map.mp hl with ⟨src, hsrc, rfl⟩
      exact ⟨src, (mem_sortLE _ _ src).mp hsrc, hil⟩
    · rintro ⟨src, hsrc, hil⟩
      exact ⟨perSource src,
        List.mem_map.mpr ⟨src, (mem_sortLE _ _ src).mpr hsrc, rfl⟩, hil⟩
  · have htot : ∀ a b, (fun a b => decide (alookupQ mix b ≤ alookupQ mix a)) a b = true ∨
        (fun a b => decide (alookupQ mix b ≤ alookupQ mix a)) b a = true := by
      intro a b
      by_cases h : alookupQ mix b ≤ alookupQ mix a
      · left; simpa
      · right; simpa using le_of_not_le h
    have htrans : ∀ a b c,
        (fun a b => decide (alookupQ mix b ≤ alookupQ mix a)) a b = true →
        (fun a b => decide (alookupQ mix b ≤ alookupQ mix a)) b c = true →
        (fun a b => decide (alookupQ mix b ≤ alookupQ mix a)) a c = true := by
      intro a b c hab hbc
      simp only [decide_eq_true_eq] at *
      exact le_trans hbc hab
    have h1 := pairwise_indexOf_le (mix.map (fun kv => kv.1)) hnd
    have h2 := sortLE_pairwise_refine
      (fun a b => decide (alookupQ mix b ≤ alookupQ mix a))
      (fun a b => (mix.map (fun kv => kv.1)).indexOf a ≤ (mix.map (fun kv => kv.1)).indexOf b)
      htot htrans (mix.map (fun kv => kv.1)) h1
    refine List.Pairwise.imp ?_ h2
    intro x y hxy
    obtain ⟨hle, himp⟩ := hxy
    simp only [decide_eq_true_eq] at hle himp
    by_cases hxy2 : alookupQ mix x ≤ alookupQ mix y
    · exact Or.inr ⟨le_antisymm hle hxy2, himp hxy2⟩
    · exact Or.inl (lt_of_le_not_le hle hxy2)
  · intro callers fuel rr cap res hrr hres
    obtain ⟨new, h1, h2, h3, h4⟩ := spill_loop_spec callers fuel _ rr cap [] res hres
    have hnew : res.2 = new := by simpa using h1
    refine ⟨spill_loop_mem callers fuel _ rr cap [] res hrr (by simp) hres, ?_, ?_⟩
    · rw [hnew, h2]
    · intro c
      have h3c := h3 c
      rw [hnew]
      by_cases hpos : 0 < (new.filter (fun p => decide (p.2 = c))).length
      · have h4c := h4 c hpos
        omega
      · omega

theorem c2_spillover_queue_witness :
    (([("A", (1 : ℚ))].map (fun kv => kv.1)).Nodup) ∧
    ((0 : Nat) ∈ spill_queue (fun src => if src = "A" then [0] else []) [("A", (1 : ℚ))] ↔
      ∃ src ∈ [("A", (1 : ℚ))].map (fun kv => kv.1),
        (0 : Nat) ∈ (if src = "A" then [(0 : Nat)] else [])) ∧
    spill_loop ["c1"] 5
        (spill_queue (fun src => if src = "A" then [0] else []) [("A", (1 : ℚ))])
        ["c1"] (fun _ => (1 : ℤ)) []
      = some (Function.update (fun _ => (1 : ℤ)) "c1" ((1 : ℤ) - 1), [(0, "c1")]) ∧
    [((0 : Nat), "c1")].map Prod.fst
      = (spill_queue (fun src => if src = "A" then [0] else []) [("A", (1 : ℚ))]).take 1 := by
  refine ⟨by decide, ?_, rfl, ?_⟩
  · exact (c2_spillover_queue (fun src => if src = "A" then [0] else [])
      [("A", (1 : ℚ))] (by decide)).1 0
  · exact ((c2_spillover_queue (fun src => if src = "A" then [0] else [])
      [("A", (1 : ℚ))] (by decide)).2.2 ["c1"] 5 ["c1"] (fun _ => (1 : ℤ))
      (Function.update (fun _ => (1 : ℤ)) "c1" ((1 : ℤ) - 1), [(0, "c1")])
      (fun x hx => hx) rfl).2.1
